import Mathlib

/-!
Verification model of the ib-tws-node dynamic schema-driven RPC client
(src/ib-tws-node.js).  The JavaScript source is shallowly embedded:

* JS strings are `List Char`; decoded JSON values are the inductive `Json`
  (numbers are modelled as integers, which covers every numeral appearing
  in the protocol lines the claims quantify over; JS `undefined` arguments
  of record handlers are modelled as `Option Json` being `none`).
* The `send` encoder (source line 357) and the shell `data` handler
  (source lines 60-71, including its verbatim template literal
  `buffer${chunk}` that inserts the literal text "buffer") are embedded
  character for character.
* The schema registry (`help`/`helpEnd` handlers, `completeItem`) is a
  name-to-item association list mimicking JS object key order; waiting
  continuations are abstract waiter identifiers.
* `JSON.stringify` / `JSON.parse` are environment builtins; they are
  modelled by `stringifyChars` and the fuelled `parseVal` below, restricted
  to integer numerals and to the strict (no surrounding whitespace) forms
  that `stringifyChars` itself emits.
-/

namespace IbTws

/-- JS values as decoded from JSON records.  Numbers are modelled as
integers; object fields keep insertion order like JS objects. -/
inductive Json where
  | null : Json
  | bool : Bool → Json
  | num : Int → Json
  | str : String → Json
  | arr : List Json → Json
  | obj : List (String × Json) → Json
deriving Repr

/-- Whitespace as matched by the regex class \s in the decoder's
record-splitting regular expression (source line 322). -/
def jsWs (c : Char) : Bool :=
  c = ' ' || c = '\t' || c = '\n' || c = '\r' || c = '\x0b' || c = '\x0c' ||
  c.toNat = 0xa0 || c.toNat = 0x1680 ||
  (0x2000 <= c.toNat && c.toNat <= 0x200a) ||
  c.toNat = 0x2028 || c.toNat = 0x2029 || c.toNat = 0x202f ||
  c.toNat = 0x205f || c.toNat = 0x3000 || c.toNat = 0xfeff

/-- JS `String.split(sep)` on a one-character separator: every occurrence
separates fields, the empty string splits to one empty field. -/
def splitOn (sep : Char) : List Char → List (List Char)
  | [] => [[]]
  | c :: cs =>
    match splitOn sep cs with
    | [] => [[]]
    | f :: rs => if c = sep then [] :: f :: rs else (c :: f) :: rs

theorem splitOn_cons (sep c : Char) (cs : List Char) :
    splitOn sep (c :: cs) =
      match splitOn sep cs with
      | [] => [[]]
      | f :: rs => if c = sep then [] :: f :: rs else (c :: f) :: rs := rfl

theorem splitOn_ne_nil (sep : Char) (s : List Char) : splitOn sep s ≠ [] := by
  induction s with
  | nil => simp [splitOn]
  | cons c cs ih =>
    rw [splitOn_cons]
    rcases h : splitOn sep cs with _ | ⟨f, rs⟩
    · simp
    · by_cases hc : c = sep <;> simp [hc]

theorem splitOn_not_mem {sep : Char} {s : List Char} (h : sep ∉ s) :
    splitOn sep s = [s] := by
  induction s with
  | nil => rfl
  | cons c cs ih =>
    have hc : c ≠ sep := fun e => h (e ▸ List.mem_cons_self c cs)
    have hcs : sep ∉ cs := fun m => h (List.mem_cons_of_mem _ m)
    rw [splitOn_cons, ih hcs]
    simp [hc]

theorem splitOn_append_sep {sep : Char} {a : List Char} (ha : sep ∉ a) (b : List Char) :
    splitOn sep (a ++ sep :: b) = a :: splitOn sep b := by
  induction a with
  | nil =>
    show splitOn sep (sep :: b) = [] :: splitOn sep b
    rw [splitOn_cons]
    rcases h : splitOn sep b with _ | ⟨f, rs⟩
    · exact absurd h (splitOn_ne_nil sep b)
    · simp
  | cons c cs ih =>
    have hc : c ≠ sep := fun e => ha (e ▸ List.mem_cons_self c cs)
    have hcs : sep ∉ cs := fun m => ha (List.mem_cons_of_mem _ m)
    show splitOn sep (c :: (cs ++ sep :: b)) = (c :: cs) :: splitOn sep b
    rw [splitOn_cons, ih hcs]
    simp [hc]

/-- Splitting the tab-joined parts recovers them when no part contains the
separator (the shape of the decoder's field split). -/
theorem splitOn_intercalate (sep : Char) (parts : List (List Char))
    (hne : parts ≠ []) (hclean : ∀ p ∈ parts, sep ∉ p) :
    splitOn sep (List.intercalate [sep] parts) = parts := by
  induction parts with
  | nil => exact absurd rfl hne
  | cons p ps ih =>
    rcases ps with _ | ⟨q, qs⟩
    · have : List.intercalate [sep] [p] = p := by
        simp [List.intercalate, List.intersperse]
      rw [this]
      exact splitOn_not_mem (hclean p (by simp))
    · have step : List.intercalate [sep] (p :: q :: qs) =
          p ++ sep :: List.intercalate [sep] (q :: qs) := by
        simp [List.intercalate, List.intersperse]
      rw [step, splitOn_append_sep (hclean p (by simp))]
      rw [ih (by simp) (fun r hr => hclean r (List.mem_cons_of_mem _ hr))]

/- Structural equality test for `Json`, written by mutual recursion because
the nested occurrence of `List Json` blocks the automatic derivation. -/
mutual

def jeq : Json → Json → Bool
  | .null, .null => true
  | .bool a, .bool b => a == b
  | .num a, .num b => a == b
  | .str a, .str b => a == b
  | .arr a, .arr b => jeqL a b
  | .obj a, .obj b => jeqF a b
  | _, _ => false

def jeqL : List Json → List Json → Bool
  | [], [] => true
  | x :: xs, y :: ys => jeq x y && jeqL xs ys
  | _, _ => false

def jeqF : List (String × Json) → List (String × Json) → Bool
  | [], [] => true
  | (k, v) :: xs, (l, w) :: ys => k == l && jeq v w && jeqF xs ys
  | _, _ => false

end

mutual

theorem jeq_refl : ∀ a, jeq a a = true
  | .null => rfl
  | .bool b => by simp [jeq]
  | .num n => by simp [jeq]
  | .str t => by simp [jeq]
  | .arr xs => by rw [jeq]; exact jeqL_refl xs
  | .obj kvs => by rw [jeq]; exact jeqF_refl kvs

theorem jeqL_refl : ∀ xs, jeqL xs xs = true
  | [] => rfl
  | x :: xs => by rw [jeqL]; simp [jeq_refl x, jeqL_refl xs]

theorem jeqF_refl : ∀ xs, jeqF xs xs = true
  | [] => rfl
  | (k, v) :: xs => by rw [jeqF]; simp [jeq_refl v, jeqF_refl xs]

end

mutual

theorem eq_of_jeq : ∀ a b, jeq a b = true → a = b
  | .null, .null, _ => rfl
  | .bool a, .bool b, h => by simp [jeq] at h; rw [h]
  | .num a, .num b, h => by simp [jeq] at h; rw [h]
  | .str a, .str b, h => by simp [jeq] at h; rw [h]
  | .arr a, .arr b, h => by rw [jeq] at h; rw [eq_of_jeqL a b h]
  | .obj a, .obj b, h => by rw [jeq] at h; rw [eq_of_jeqF a b h]

theorem eq_of_jeqL : ∀ xs ys, jeqL xs ys = true → xs = ys
  | [], [], _ => rfl
  | x :: xs, y :: ys, h => by
    rw [jeqL] at h
    have h2 := Bool.and_elim_right h
    have h1 := Bool.and_elim_left h
    rw [eq_of_jeq x y h1, eq_of_jeqL xs ys h2]

theorem eq_of_jeqF : ∀ xs ys, jeqF xs ys = true → xs = ys
  | [], [], _ => rfl
  | (k, v) :: xs, (l, w) :: ys, h => by
    rw [jeqF] at h
    have h3 := Bool.and_elim_right h
    have h12 := Bool.and_elim_left h
    have h1 := Bool.and_elim_left h12
    have h2 := Bool.and_elim_right h12
    rw [eq_of_jeq v w h2, eq_of_jeqF xs ys h3, eq_of_beq h1]

end

instance : DecidableEq Json := fun a b =>
  decidable_of_iff (jeq a b = true) ⟨eq_of_jeq a b, fun h => h ▸ jeq_refl a⟩

/-- Hexadecimal digit characters used by the \u escape in stringified
control characters. -/
def hexDigit (n : Nat) : Char :=
  if n < 10 then Char.ofNat (48 + n) else Char.ofNat (87 + n)

/-- JSON.stringify escaping of one character inside a string literal. -/
def escChar (c : Char) : List Char :=
  if c = '"' then ['\\', '"']
  else if c = '\\' then ['\\', '\\']
  else if c = '\n' then ['\\', 'n']
  else if c = '\t' then ['\\', 't']
  else if c = '\r' then ['\\', 'r']
  else if c = '\x08' then ['\\', 'b']
  else if c = '\x0c' then ['\\', 'f']
  else if c.toNat < 32 then
    ['\\', 'u', '0', '0', hexDigit (c.toNat / 16), hexDigit (c.toNat % 16)]
  else [c]

/-- JSON string literal for the character list `s`. -/
def strLit (s : List Char) : List Char :=
  '"' :: s.flatMap escChar ++ ['"']

/-- Character of one decimal digit. -/
def digitCh (d : Nat) : Char := Char.ofNat (48 + d)

/-- Fuelled big-endian digit extraction (the fuel n itself always
suffices, and keeps the recursion structural). -/
def natDigitsAux : Nat → Nat → List Nat
  | 0, _ => []
  | fuel + 1, n => if n = 0 then [] else natDigitsAux fuel (n / 10) ++ [n % 10]

/-- Decimal digit list (most significant first) of a natural number. -/
def dsOf (n : Nat) : List Nat :=
  if n = 0 then [0] else natDigitsAux n n

theorem natDigitsAux_eq : ∀ (fuel n : Nat), n ≤ fuel →
    natDigitsAux fuel n = (Nat.digits 10 n).reverse := by
  intro fuel
  induction fuel with
  | zero =>
    intro n h
    have : n = 0 := by omega
    subst this
    simp [natDigitsAux]
  | succ f ih =>
    intro n h
    by_cases hn : n = 0
    · subst hn
      simp [natDigitsAux]
    · have hpos : 0 < n := Nat.pos_of_ne_zero hn
      have hdiv : n / 10 < n := Nat.div_lt_self hpos (by norm_num)
      have hle : n / 10 ≤ f := by omega
      show (if n = 0 then [] else natDigitsAux f (n / 10) ++ [n % 10]) = _
      rw [if_neg hn, ih (n / 10) hle, Nat.digits_def' (by norm_num : (1:Nat) < 10) hpos]
      simp

theorem dsOf_eq (n : Nat) :
    dsOf n = if n = 0 then [0] else (Nat.digits 10 n).reverse := by
  unfold dsOf
  by_cases h : n = 0
  · simp [h]
  · rw [if_neg h, if_neg h, natDigitsAux_eq n n (le_refl n)]

/-- Decimal digits of a natural number, most significant first. -/
def natChars (n : Nat) : List Char :=
  (dsOf n).map digitCh

/-- Decimal form of an integer as JSON.stringify prints it. -/
def intChars (n : Int) : List Char :=
  if n < 0 then '-' :: natChars n.natAbs else natChars n.natAbs

/- The characters JSON.stringify produces for a value (no added spaces,
exactly the compact one-line form the node client writes to the wire). -/
mutual

def stringifyChars : Json → List Char
  | .null => 'n' :: 'u' :: 'l' :: 'l' :: []
  | .bool true => 't' :: 'r' :: 'u' :: 'e' :: []
  | .bool false => 'f' :: 'a' :: 'l' :: 's' :: 'e' :: []
  | .num n => intChars n
  | .str t => strLit t.data
  | .arr xs => '[' :: stringifyElems xs ++ [']']
  | .obj kvs => '\x7b' :: stringifyFields kvs ++ ['\x7d']

def stringifyElems : List Json → List Char
  | [] => []
  | [x] => stringifyChars x
  | x :: y :: xs => stringifyChars x ++ ',' :: stringifyElems (y :: xs)

def stringifyFields : List (String × Json) → List Char
  | [] => []
  | [(k, v)] => strLit k.data ++ ':' :: stringifyChars v
  | (k, v) :: p :: xs =>
    strLit k.data ++ ':' :: stringifyChars v ++ ',' :: stringifyFields (p :: xs)

end

/-- Value of one hexadecimal digit character, as JSON.parse reads \u escapes. -/
def hexVal (c : Char) : Option Nat :=
  if '0' ≤ c && c ≤ '9' then some (c.toNat - 48)
  else if 'a' ≤ c && c ≤ 'f' then some (c.toNat - 87)
  else if 'A' ≤ c && c ≤ 'F' then some (c.toNat - 55)
  else none

/-- Decoded character of one simple (single-letter) escape. -/
def simpleEsc (e : Char) : Option Char :=
  if e = 'n' then some '\n'
  else if e = 't' then some '\t'
  else if e = 'r' then some '\r'
  else if e = 'b' then some '\x08'
  else if e = 'f' then some '\x0c'
  else if e = '"' then some '"'
  else if e = '\\' then some '\\'
  else if e = '/' then some '/'
  else none

/-- Body of a JSON string literal after the opening quote: the decoded
characters and the input remaining after the closing quote. -/
def parseStringRest : List Char → Option (List Char × List Char)
  | [] => none
  | c :: rest =>
    if c = '"' then some ([], rest)
    else if c = '\\' then
      match rest with
      | [] => none
      | e :: rest2 =>
        if e = 'u' then
          match rest2 with
          | h1 :: h2 :: h3 :: h4 :: rest3 =>
            match hexVal h1, hexVal h2, hexVal h3, hexVal h4 with
            | some a, some b, some c2, some d2 =>
              match parseStringRest rest3 with
              | some (cs, r2) =>
                some (Char.ofNat (4096 * a + 256 * b + 16 * c2 + d2) :: cs, r2)
              | none => none
            | _, _, _, _ => none
          | _ => none
        else
          match simpleEsc e with
          | some ch =>
            match parseStringRest rest2 with
            | some (cs, r2) => some (ch :: cs, r2)
            | none => none
          | none => none
    else
      match parseStringRest rest with
      | some (cs, r2) => some (c :: cs, r2)
      | none => none

theorem hexVal_hexDigit {m : Nat} (h : m < 16) : hexVal (hexDigit m) = some m := by
  revert m h
  decide

theorem psr_quote (rest : List Char) : parseStringRest ('"' :: rest) = some ([], rest) := by
  rw [parseStringRest.eq_def]
  simp

theorem psr_plain {c : Char} (h1 : c ≠ '"') (h2 : c ≠ '\\') (rest : List Char) :
    parseStringRest (c :: rest) =
      match parseStringRest rest with
      | some (cs, r2) => some (c :: cs, r2)
      | none => none := by
  rw [parseStringRest.eq_def]
  simp only [h1, h2, if_false, reduceIte]

theorem psr_esc_cons (e ch : Char) (hu : e ≠ 'u') (he : simpleEsc e = some ch)
    {tail cs rest : List Char} (htail : parseStringRest tail = some (cs, rest)) :
    parseStringRest ('\\' :: e :: tail) = some (ch :: cs, rest) := by
  rw [parseStringRest.eq_def]
  simp [hu, he, htail]

theorem psr_u {h1 h2 h3 h4 : Char} {a b c2 d2 : Nat}
    (e1 : hexVal h1 = some a) (e2 : hexVal h2 = some b)
    (e3 : hexVal h3 = some c2) (e4 : hexVal h4 = some d2)
    {tail cs rest : List Char} (htail : parseStringRest tail = some (cs, rest)) :
    parseStringRest ('\\' :: 'u' :: h1 :: h2 :: h3 :: h4 :: tail) =
      some (Char.ofNat (4096 * a + 256 * b + 16 * c2 + d2) :: cs, rest) := by
  rw [parseStringRest.eq_def]
  simp [e1, e2, e3, e4, htail]

theorem escChar_low {c : Char} (hq : c ≠ '"') (hb : c ≠ '\\') (hn : c ≠ '\n')
    (ht : c ≠ '\t') (hr : c ≠ '\r') (h8 : c ≠ '\x08') (hc : c ≠ '\x0c')
    (hlow : c.toNat < 32) :
    escChar c = ['\\', 'u', '0', '0', hexDigit (c.toNat / 16), hexDigit (c.toNat % 16)] := by
  unfold escChar
  simp [hq, hb, hn, ht, hr, h8, hc, hlow]

theorem escChar_plain {c : Char} (hq : c ≠ '"') (hb : c ≠ '\\') (hn : c ≠ '\n')
    (ht : c ≠ '\t') (hr : c ≠ '\r') (h8 : c ≠ '\x08') (hc : c ≠ '\x0c')
    (hlow : ¬ c.toNat < 32) : escChar c = [c] := by
  unfold escChar
  simp [hq, hb, hn, ht, hr, h8, hc, hlow]

/-- Decoding a stringified string body gives back its characters and leaves
the remaining input intact. -/
theorem psr_roundtrip : ∀ (s : List Char) (rest : List Char),
    parseStringRest (s.flatMap escChar ++ '"' :: rest) = some (s, rest) := by
  intro s
  induction s with
  | nil => intro rest; simpa using psr_quote rest
  | cons c cs ih =>
    intro rest
    have shape : (c :: cs).flatMap escChar ++ '"' :: rest =
        escChar c ++ (cs.flatMap escChar ++ '"' :: rest) := by
      simp [List.flatMap_cons]
    rw [shape]
    by_cases hq : c = '"'
    · subst hq
      have ec : escChar '"' = ['\\', '"'] := by decide
      rw [ec, List.cons_append, List.cons_append, List.nil_append]
      exact psr_esc_cons '"' '"' (by decide) (by decide) (ih rest)
    · by_cases hb : c = '\\'
      · subst hb
        have ec : escChar '\\' = ['\\', '\\'] := by decide
        rw [ec, List.cons_append, List.cons_append, List.nil_append]
        exact psr_esc_cons '\\' '\\' (by decide) (by decide) (ih rest)
      · by_cases hn : c = '\n'
        · subst hn
          have ec : escChar '\n' = ['\\', 'n'] := by decide
          rw [ec, List.cons_append, List.cons_append, List.nil_append]
          exact psr_esc_cons 'n' '\n' (by decide) (by decide) (ih rest)
        · by_cases ht : c = '\t'
          · subst ht
            have ec : escChar '\t' = ['\\', 't'] := by decide
            rw [ec, List.cons_append, List.cons_append, List.nil_append]
            exact psr_esc_cons 't' '\t' (by decide) (by decide) (ih rest)
          · by_cases hr : c = '\r'
            · subst hr
              have ec : escChar '\r' = ['\\', 'r'] := by decide
              rw [ec, List.cons_append, List.cons_append, List.nil_append]
              exact psr_esc_cons 'r' '\r' (by decide) (by decide) (ih rest)
            · by_cases h8 : c = '\x08'
              · subst h8
                have ec : escChar '\x08' = ['\\', 'b'] := by decide
                rw [ec, List.cons_append, List.cons_append, List.nil_append]
                exact psr_esc_cons 'b' '\x08' (by decide) (by decide) (ih rest)
              · by_cases hc : c = '\x0c'
                · subst hc
                  have ec : escChar '\x0c' = ['\\', 'f'] := by decide
                  rw [ec, List.cons_append, List.cons_append, List.nil_append]
                  exact psr_esc_cons 'f' '\x0c' (by decide) (by decide) (ih rest)
                · by_cases hlow : c.toNat < 32
                  · rw [escChar_low hq hb hn ht hr h8 hc hlow]
                    rw [List.cons_append, List.cons_append, List.cons_append,
                      List.cons_append, List.cons_append, List.cons_append,
                      List.nil_append]
                    have e0 : hexVal '0' = some 0 := by decide
                    have e2 : hexVal (hexDigit (c.toNat / 16)) = some (c.toNat / 16) :=
                      hexVal_hexDigit (by omega)
                    have e3 : hexVal (hexDigit (c.toNat % 16)) = some (c.toNat % 16) :=
                      hexVal_hexDigit (Nat.mod_lt _ (by norm_num))
                    have h5 := psr_u e0 e0 e2 e3 (ih rest)
                    have eval2 : 4096 * 0 + 256 * 0 + 16 * (c.toNat / 16) + c.toNat % 16
                        = c.toNat := by omega
                    rw [eval2, Char.ofNat_toNat] at h5
                    exact h5
                  · rw [escChar_plain hq hb hn ht hr h8 hc hlow,
                      List.singleton_append, psr_plain hq hb]
                    rw [ih rest]

/-- Digit test used by the modelled numeral scanner. -/
def isDigit (c : Char) : Bool := '0' ≤ c && c ≤ '9'

/-- Numeric value of a digit character. -/
def digitVal (c : Char) : Nat := c.toNat - 48

/-- Greedy decimal scan: accumulates digits, stops at the first non-digit. -/
def parseDigits (acc : Nat) : List Char → Nat × List Char
  | [] => (acc, [])
  | c :: cs => if isDigit c then parseDigits (acc * 10 + digitVal c) cs else (acc, c :: cs)

/-- True when the remaining input continues a non-integer numeral form that
the integer-restricted model refuses to read. -/
def numCont (r : List Char) : Bool :=
  match r with
  | '.' :: _ => true
  | 'e' :: _ => true
  | 'E' :: _ => true
  | _ => false

/-- Unsigned integer numeral scan used by the modelled JSON.parse. -/
def parsePosNumber : List Char → Option (Nat × List Char)
  | [] => none
  | c :: cs =>
    if isDigit c then
      let p := parseDigits 0 (c :: cs)
      if numCont p.2 then none else some (p.1, p.2)
    else none

/-- Integer numeral parse, the JSON.parse fragment the model supports. -/
def parseNumber : List Char → Option (Json × List Char)
  | [] => none
  | c :: cs =>
    if c = '-' then (parsePosNumber cs).map (fun p => (.num (-(p.1 : Int)), p.2))
    else if isDigit c then
      (parsePosNumber (c :: cs)).map (fun p => (.num ((p.1 : Int)), p.2))
    else none

theorem isDigit_digitCh : ∀ d, d < 10 → isDigit (digitCh d) = true := by decide

theorem digitVal_digitCh : ∀ d, d < 10 → digitVal (digitCh d) = d := by decide

theorem parseDigits_stop {rest : List Char} (acc : Nat)
    (h : ∀ c, rest.head? = some c → isDigit c = false) :
    parseDigits acc rest = (acc, rest) := by
  cases rest with
  | nil => rfl
  | cons c cs =>
    have hc : isDigit c = false := h c rfl
    unfold parseDigits
    rw [hc]
    simp

theorem parseDigits_run : ∀ (ds : List Nat) (acc : Nat) (rest : List Char),
    (∀ d ∈ ds, d < 10) → (∀ c, rest.head? = some c → isDigit c = false) →
    parseDigits acc (ds.map digitCh ++ rest) =
      (ds.foldl (fun a d => a * 10 + d) acc, rest) := by
  intro ds
  induction ds with
  | nil => intro acc rest _ hrest; simpa using parseDigits_stop acc hrest
  | cons d ds ih =>
    intro acc rest hds hrest
    have hd : d < 10 := hds d (by simp)
    show parseDigits acc (digitCh d :: (ds.map digitCh ++ rest)) = _
    unfold parseDigits
    rw [isDigit_digitCh d hd]
    simp only [if_true, digitVal_digitCh d hd]
    rw [ih (acc * 10 + d) rest (fun x hx => hds x (by simp [hx])) hrest]
    simp

theorem foldr_ofDigits : ∀ L : List Nat,
    L.foldr (fun d a => a * 10 + d) 0 = Nat.ofDigits 10 L := by
  intro L
  induction L with
  | nil => simp [Nat.ofDigits]
  | cons d L ih =>
    simp [Nat.ofDigits, ih]
    ring

theorem foldl_dsOf (n : Nat) : (dsOf n).foldl (fun a d => a * 10 + d) 0 = n := by
  rw [dsOf_eq]
  by_cases h : n = 0
  · simp [h]
  · rw [if_neg h, List.foldl_reverse]
    have : (Nat.digits 10 n).foldr (fun x y => (fun a d => a * 10 + d) y x) 0 =
        (Nat.digits 10 n).foldr (fun d a => a * 10 + d) 0 := rfl
    rw [this, foldr_ofDigits, Nat.ofDigits_digits]

theorem dsOf_lt (n : Nat) : ∀ d ∈ dsOf n, d < 10 := by
  intro d hd
  rw [dsOf_eq] at hd
  by_cases h : n = 0
  · simp [h] at hd; omega
  · rw [if_neg h, List.mem_reverse] at hd
    exact Nat.digits_lt_base (by norm_num) hd

theorem natChars_ne_nil (n : Nat) : natChars n ≠ [] := by
  unfold natChars
  rw [dsOf_eq]
  by_cases h : n = 0
  · simp [h]
  · rw [if_neg h]
    simp [Nat.digits_ne_nil_iff_ne_zero, h]

theorem isDigit_of_mem_natChars {n : Nat} {c : Char} (h : c ∈ natChars n) :
    isDigit c = true := by
  unfold natChars at h
  obtain ⟨d, hd, rfl⟩ := List.mem_map.mp h
  exact isDigit_digitCh d (dsOf_lt n d hd)

theorem parseDigits_natChars (n : Nat) (rest : List Char)
    (hrest : ∀ c, rest.head? = some c → isDigit c = false) :
    parseDigits 0 (natChars n ++ rest) = (n, rest) := by
  unfold natChars
  rw [parseDigits_run (dsOf n) 0 rest (dsOf_lt n) hrest, foldl_dsOf]

theorem natChars_head_digit (n : Nat) :
    ∀ c, (natChars n).head? = some c → isDigit c = true := by
  intro c hc
  apply isDigit_of_mem_natChars (n := n)
  cases h : natChars n with
  | nil => exact absurd h (natChars_ne_nil n)
  | cons a l => rw [h] at hc; simp at hc; simp [h, hc]

/-- Input positions where a JSON value may legitimately stop: end of input,
a separator, or a closing bracket.  Everything the encoder appends after a
stringified value starts this way. -/
def jBoundary (rest : List Char) : Prop :=
  ∀ c, rest.head? = some c →
    (isDigit c = false ∧ c ≠ '.' ∧ c ≠ 'e' ∧ c ≠ 'E' ∧ c ≠ '"')

theorem parsePosNumber_natChars (n : Nat) (rest : List Char)
    (hrest : ∀ c, rest.head? = some c → isDigit c = false)
    (hnc : numCont rest = false) :
    parsePosNumber (natChars n ++ rest) = some (n, rest) := by
  cases hnat : natChars n with
  | nil => exact absurd hnat (natChars_ne_nil n)
  | cons d ds =>
    have hd : isDigit d = true := by
      apply natChars_head_digit n
      rw [hnat]; rfl
    have hpd : parseDigits 0 (d :: (ds ++ rest)) = (n, rest) := by
      have h2 := parseDigits_natChars n rest hrest
      rw [hnat] at h2
      simpa using h2
    show parsePosNumber (d :: ds ++ rest) = some (n, rest)
    rw [List.cons_append]
    simp only [parsePosNumber, hd, if_true, reduceIte, hpd, hnc]
    simp

/-- Reading back a printed integer: the scan consumes exactly the numeral. -/
theorem parseNumber_roundtrip (m : Int) (rest : List Char) (hb : jBoundary rest) :
    parseNumber (intChars m ++ rest) = some (.num m, rest) := by
  have hrest : ∀ c, rest.head? = some c → isDigit c = false :=
    fun c hc => (hb c hc).1
  have hnc : numCont rest = false := by
    unfold numCont
    cases rest with
    | nil => rfl
    | cons c cs =>
      obtain ⟨h1, h2, h3, h4, h5⟩ := hb c rfl
      simp [h2, h3, h4]
  by_cases hm : m < 0
  · have him : intChars m = '-' :: natChars m.natAbs := by
      unfold intChars
      rw [if_pos hm]
    rw [him, List.cons_append]
    simp only [parseNumber, if_pos rfl, parsePosNumber_natChars m.natAbs rest hrest hnc]
    have habs : ((m.natAbs : Int)) = -m := Int.ofNat_natAbs_of_nonpos (le_of_lt hm)
    simp [habs]
  · have him : intChars m = natChars m.natAbs := by
      unfold intChars
      rw [if_neg hm]
    rw [him]
    cases hnat : natChars m.natAbs with
    | nil => exact absurd hnat (natChars_ne_nil m.natAbs)
    | cons d ds =>
      have hd : isDigit d = true := by
        apply natChars_head_digit m.natAbs
        rw [hnat]; rfl
      have hdm : d ≠ '-' := by
        intro e
        rw [e] at hd
        exact absurd hd (by decide)
      have hpp : parsePosNumber (natChars m.natAbs ++ rest) = some (m.natAbs, rest) :=
        parsePosNumber_natChars m.natAbs rest hrest hnc
      rw [hnat] at hpp
      show parseNumber (d :: (ds ++ rest)) = some (.num m, rest)
      have hpp2 : parsePosNumber (d :: (ds ++ rest)) = some (m.natAbs, rest) := by
        simpa using hpp
      simp only [parseNumber, if_neg hdm, hd, if_true, reduceIte, hpp2]
      have habs : ((m.natAbs : Int)) = m := Int.natAbs_of_nonneg (not_lt.mp hm)
      simp [habs]

/- Fuelled recursive-descent reader for the JSON fragment the encoder
emits: literals, integer numerals, escaped strings, arrays and objects,
with no surrounding whitespace.  Fuel drops by one on every recursive
step; any sufficiently large budget gives the same answer. -/
mutual

def parseVal : Nat → List Char → Option (Json × List Char)
  | 0, _ => none
  | _ + 1, [] => none
  | n + 1, c :: r =>
    if c = '"' then
      match parseStringRest r with
      | none => none
      | some (cs, r2) => some (.str (String.mk cs), r2)
    else if c = '[' then
      match r with
      | ']' :: r2 => some (.arr [], r2)
      | _ =>
        match parseElems n r with
        | none => none
        | some (vs, r2) => some (.arr vs, r2)
    else if c = '\x7b' then
      match r with
      | '\x7d' :: r2 => some (.obj [], r2)
      | _ =>
        match parseFields n r with
        | none => none
        | some (kvs, r2) => some (.obj kvs, r2)
    else if c = 'n' then
      match r with
      | 'u' :: 'l' :: 'l' :: r2 => some (.null, r2)
      | _ => none
    else if c = 't' then
      match r with
      | 'r' :: 'u' :: 'e' :: r2 => some (.bool true, r2)
      | _ => none
    else if c = 'f' then
      match r with
      | 'a' :: 'l' :: 's' :: 'e' :: r2 => some (.bool false, r2)
      | _ => none
    else parseNumber (c :: r)

def parseElems : Nat → List Char → Option (List Json × List Char)
  | 0, _ => none
  | n + 1, s =>
    match parseVal n s with
    | some (v, ',' :: r) =>
      match parseElems n r with
      | some (vs, r2) => some (v :: vs, r2)
      | none => none
    | some (v, ']' :: r) => some ([v], r)
    | _ => none

def parseFields : Nat → List Char → Option (List (String × Json) × List Char)
  | 0, _ => none
  | n + 1, s =>
    match s with
    | '"' :: s2 =>
      match parseStringRest s2 with
      | some (k, ':' :: r) =>
        match parseVal n r with
        | some (v, ',' :: r2) =>
          match parseFields n r2 with
          | some (kvs, r3) => some ((String.mk k, v) :: kvs, r3)
          | none => none
        | some (v, '\x7d' :: r2) => some ([(String.mk k, v)], r2)
        | _ => none
      | _ => none
    | _ => none

end

/- Budget measure for the parser: an upper bound on how many recursive
steps reading a value back can take. -/
mutual

def weight : Json → Nat
  | .arr xs => weightL xs + 1
  | .obj kvs => weightF kvs + 1
  | _ => 1

def weightL : List Json → Nat
  | [] => 1
  | x :: xs => weight x + weightL xs + 1

def weightF : List (String × Json) → Nat
  | [] => 1
  | (_, v) :: xs => weight v + weightF xs + 1

end

/-- The decoder's per-field reader: JSON.parse on the whole field when it
succeeds with nothing left over, otherwise the raw field text (source
lines 324-330). -/
def jsonParseOrRaw (f : List Char) : Json :=
  match parseVal (2 * f.length + 2) f with
  | some (v, []) => v
  | _ => .str (String.mk f)

theorem mk_data (t : String) : String.mk t.data = t := by
  cases t
  rfl

theorem hexDigit_ok : ∀ m, m < 16 → hexDigit m ≠ '\t' ∧ hexDigit m ≠ '\n' := by decide

theorem digitCh_ok : ∀ d, d < 10 →
    digitCh d ≠ '\t' ∧ digitCh d ≠ '\n' ∧ jsWs (digitCh d) = false ∧
    digitCh d ≠ ']' ∧ digitCh d ≠ '"' ∧ digitCh d ≠ '[' ∧ digitCh d ≠ '\x7b' ∧
    digitCh d ≠ 'n' ∧ digitCh d ≠ 't' ∧ digitCh d ≠ 'f' ∧ digitCh d ≠ '-' ∧
    digitCh d ≠ '\x7d' := by
  decide

theorem escChar_ok : ∀ (d c : Char), c ∈ escChar d → c ≠ '\t' ∧ c ≠ '\n' := by
  intro d c hmem
  unfold escChar at hmem
  by_cases hq : d = '"'
  · rw [if_pos hq] at hmem
    simp only [List.mem_cons, List.not_mem_nil, or_false] at hmem
    rcases hmem with rfl | rfl <;> exact ⟨by decide, by decide⟩
  · rw [if_neg hq] at hmem
    by_cases hb : d = '\\'
    · rw [if_pos hb] at hmem
      simp only [List.mem_cons, List.not_mem_nil, or_false] at hmem
      rcases hmem with rfl | rfl <;> exact ⟨by decide, by decide⟩
    · rw [if_neg hb] at hmem
      by_cases hn : d = '\n'
      · rw [if_pos hn] at hmem
        simp only [List.mem_cons, List.not_mem_nil, or_false] at hmem
        rcases hmem with rfl | rfl <;> exact ⟨by decide, by decide⟩
      · rw [if_neg hn] at hmem
        by_cases ht : d = '\t'
        · rw [if_pos ht] at hmem
          simp only [List.mem_cons, List.not_mem_nil, or_false] at hmem
          rcases hmem with rfl | rfl <;> exact ⟨by decide, by decide⟩
        · rw [if_neg ht] at hmem
          by_cases hr : d = '\r'
          · rw [if_pos hr] at hmem
            simp only [List.mem_cons, List.not_mem_nil, or_false] at hmem
            rcases hmem with rfl | rfl <;> exact ⟨by decide, by decide⟩
          · rw [if_neg hr] at hmem
            by_cases h8 : d = '\x08'
            · rw [if_pos h8] at hmem
              simp only [List.mem_cons, List.not_mem_nil, or_false] at hmem
              rcases hmem with rfl | rfl <;> exact ⟨by decide, by decide⟩
            · rw [if_neg h8] at hmem
              by_cases hc : d = '\x0c'
              · rw [if_pos hc] at hmem
                simp only [List.mem_cons, List.not_mem_nil, or_false] at hmem
                rcases hmem with rfl | rfl <;> exact ⟨by decide, by decide⟩
              · rw [if_neg hc] at hmem
                by_cases hlow : d.toNat < 32
                · rw [if_pos hlow] at hmem
                  have b1 := hexDigit_ok (d.toNat / 16) (by omega)
                  have b2 := hexDigit_ok (d.toNat % 16) (Nat.mod_lt _ (by norm_num))
                  simp only [List.mem_cons, List.not_mem_nil, or_false] at hmem
                  rcases hmem with h | h | h | h | h | h <;>
                    first
                      | (subst h; exact ⟨by decide, by decide⟩)
                      | (subst h; exact b1)
                      | (subst h; exact b2)
                · rw [if_neg hlow] at hmem
                  have : c = d := by simpa using hmem
                  subst this
                  constructor
                  · intro e; rw [e] at hlow; exact hlow (by decide)
                  · intro e; rw [e] at hlow; exact hlow (by decide)

theorem intChars_ok : ∀ (m : Int) (c : Char), c ∈ intChars m →
    c ≠ '\t' ∧ c ≠ '\n' := by
  intro m c hmem
  have innat : ∀ x, x ∈ natChars m.natAbs → x ≠ '\t' ∧ x ≠ '\n' := by
    intro x hx
    obtain ⟨d, hd, rfl⟩ := List.mem_map.mp hx
    have := digitCh_ok d (dsOf_lt _ d hd)
    exact ⟨this.1, this.2.1⟩
  unfold intChars at hmem
  by_cases hm : m < 0
  · rw [if_pos hm] at hmem
    rcases List.mem_cons.mp hmem with h | h
    · subst h; exact ⟨by decide, by decide⟩
    · exact innat c h
  · rw [if_neg hm] at hmem
    exact innat c hmem


theorem strLit_mem_ok : ∀ (tl : List Char) (c : Char), c ∈ strLit tl →
    c ≠ '\t' ∧ c ≠ '\n' := by
  intro tl c h
  unfold strLit at h
  rcases List.mem_cons.mp h with rfl | h2
  · exact ⟨by decide, by decide⟩
  · rcases List.mem_append.mp h2 with h3 | h4
    · obtain ⟨d, hd, hc⟩ := List.mem_flatMap.mp h3
      exact escChar_ok d c hc
    · have : c = '"' := by simpa using h4
      subst this
      exact ⟨by decide, by decide⟩

/- No character of a stringified value is a tab or a newline: tabs and
newlines inside strings are escaped, and the frame characters are all
printable.  This is what lets one wire line carry a whole record. -/
mutual

theorem sc_ok : ∀ (v : Json) (c : Char), c ∈ stringifyChars v → c ≠ '\t' ∧ c ≠ '\n'
  | .null, c, h => by
    have : c = 'n' ∨ c = 'u' ∨ c = 'l' ∨ c = 'l' := by simpa [stringifyChars] using h
    rcases this with rfl | rfl | rfl | rfl <;> exact ⟨by decide, by decide⟩
  | .bool true, c, h => by
    have : c = 't' ∨ c = 'r' ∨ c = 'u' ∨ c = 'e' := by simpa [stringifyChars] using h
    rcases this with rfl | rfl | rfl | rfl <;> exact ⟨by decide, by decide⟩
  | .bool false, c, h => by
    have : c = 'f' ∨ c = 'a' ∨ c = 'l' ∨ c = 's' ∨ c = 'e' := by
      simpa [stringifyChars] using h
    rcases this with rfl | rfl | rfl | rfl | rfl <;> exact ⟨by decide, by decide⟩
  | .num m, c, h => intChars_ok m c (by simpa [stringifyChars] using h)
  | .str t, c, h => strLit_mem_ok t.data c (by simpa [stringifyChars] using h)
  | .arr xs, c, h => by
    have h2 : c = '[' ∨ c ∈ stringifyElems xs ∨ c = ']' := by
      have := h
      simp only [stringifyChars, List.cons_append, List.mem_cons, List.mem_append,
        List.not_mem_nil, or_false, List.mem_singleton] at this
      tauto
    rcases h2 with rfl | h3 | rfl
    · exact ⟨by decide, by decide⟩
    · exact sc_okL xs c h3
    · exact ⟨by decide, by decide⟩
  | .obj kvs, c, h => by
    have h2 : c = '\x7b' ∨ c ∈ stringifyFields kvs ∨ c = '\x7d' := by
      have := h
      simp only [stringifyChars, List.cons_append, List.mem_cons, List.mem_append,
        List.not_mem_nil, or_false, List.mem_singleton] at this
      tauto
    rcases h2 with rfl | h3 | rfl
    · exact ⟨by decide, by decide⟩
    · exact sc_okF kvs c h3
    · exact ⟨by decide, by decide⟩

theorem sc_okL : ∀ (xs : List Json) (c : Char), c ∈ stringifyElems xs →
    c ≠ '\t' ∧ c ≠ '\n'
  | [], c, h => by simp [stringifyElems] at h
  | [x], c, h => sc_ok x c (by simpa [stringifyElems] using h)
  | x :: y :: ys, c, h => by
    have h2 : c ∈ stringifyChars x ∨ c = ',' ∨ c ∈ stringifyElems (y :: ys) := by
      have := h
      simp only [stringifyElems, List.mem_append, List.mem_cons] at this
      tauto
    rcases h2 with h3 | rfl | h3
    · exact sc_ok x c h3
    · exact ⟨by decide, by decide⟩
    · exact sc_okL (y :: ys) c h3

theorem sc_okF : ∀ (kvs : List (String × Json)) (c : Char), c ∈ stringifyFields kvs →
    c ≠ '\t' ∧ c ≠ '\n'
  | [], c, h => by simp [stringifyFields] at h
  | [(k, v)], c, h => by
    have h2 : c ∈ strLit k.data ∨ c = ':' ∨ c ∈ stringifyChars v := by
      have := h
      simp only [stringifyFields, List.mem_append, List.mem_cons] at this
      tauto
    rcases h2 with h3 | rfl | h3
    · exact strLit_mem_ok k.data c h3
    · exact ⟨by decide, by decide⟩
    · exact sc_ok v c h3
  | (k, v) :: p :: xs, c, h => by
    have h2 : c ∈ strLit k.data ∨ c = ':' ∨ c ∈ stringifyChars v ∨ c = ',' ∨
        c ∈ stringifyFields (p :: xs) := by
      have := h
      simp only [stringifyFields, List.mem_append, List.mem_cons] at this
      tauto
    rcases h2 with h3 | rfl | h3 | rfl | h3
    · exact strLit_mem_ok k.data c h3
    · exact ⟨by decide, by decide⟩
    · exact sc_ok v c h3
    · exact ⟨by decide, by decide⟩
    · exact sc_okF (p :: xs) c h3

end

theorem dsOf_ne_nil (n : Nat) : dsOf n ≠ [] := by
  rw [dsOf_eq]
  by_cases h : n = 0
  · simp [h]
  · rw [if_neg h]
    simp [Nat.digits_ne_nil_iff_ne_zero, h]

/-- Shape of a stringified value's first character: it exists, it is not
whitespace, and it is none of the closing frame characters. -/
theorem stringify_head (v : Json) : ∃ c t, stringifyChars v = c :: t ∧
    jsWs c = false ∧ c ≠ ']' ∧ c ≠ '\x7d' := by
  cases v with
  | null => refine ⟨'n', _, rfl, ?_, ?_, ?_⟩ <;> decide
  | bool b =>
    cases b with
    | true => refine ⟨'t', _, rfl, ?_, ?_, ?_⟩ <;> decide
    | false => refine ⟨'f', _, rfl, ?_, ?_, ?_⟩ <;> decide
  | str t => refine ⟨'"', _, rfl, ?_, ?_, ?_⟩ <;> decide
  | arr xs => refine ⟨'[', _, rfl, ?_, ?_, ?_⟩ <;> decide
  | obj kvs => refine ⟨'\x7b', _, rfl, ?_, ?_, ?_⟩ <;> decide
  | num m =>
    show ∃ c t, intChars m = c :: t ∧ _
    unfold intChars
    by_cases hm : m < 0
    · rw [if_pos hm]
      refine ⟨'-', _, rfl, ?_, ?_, ?_⟩ <;> decide
    · rw [if_neg hm]
      unfold natChars
      cases hds : dsOf m.natAbs with
      | nil => exact absurd hds (dsOf_ne_nil _)
      | cons d ds =>
        have hd : d < 10 := dsOf_lt _ d (by rw [hds]; simp)
        have hok := digitCh_ok d hd
        exact ⟨digitCh d, ds.map digitCh, by simp, hok.2.2.1,
          hok.2.2.2.1, hok.2.2.2.2.2.2.2.2.2.2.2⟩

theorem weight_pos (v : Json) : 1 ≤ weight v := by
  cases v <;> simp [weight]

theorem weightL_pos (xs : List Json) : 1 ≤ weightL xs := by
  cases xs <;> simp [weightL]

theorem weightF_pos (kvs : List (String × Json)) : 1 ≤ weightF kvs := by
  cases kvs with
  | nil => simp [weightF]
  | cons p xs => cases p; simp [weightF]

theorem jb_nil : jBoundary [] := by intro c hc; simp at hc

theorem jb_comma (r : List Char) : jBoundary (',' :: r) := by
  intro c hc
  simp at hc
  subst hc
  refine ⟨by decide, by decide, by decide, by decide, by decide⟩

theorem jb_rbracket (r : List Char) : jBoundary (']' :: r) := by
  intro c hc
  simp at hc
  subst hc
  refine ⟨by decide, by decide, by decide, by decide, by decide⟩

theorem jb_rbrace (r : List Char) : jBoundary ('\x7d' :: r) := by
  intro c hc
  simp at hc
  subst hc
  refine ⟨by decide, by decide, by decide, by decide, by decide⟩

theorem intChars_head (m : Int) : ∃ c t, intChars m = c :: t ∧
    c ≠ '"' ∧ c ≠ '[' ∧ c ≠ '\x7b' ∧ c ≠ 'n' ∧ c ≠ 't' ∧ c ≠ 'f' := by
  unfold intChars
  by_cases hm : m < 0
  · rw [if_pos hm]
    exact ⟨'-', _, rfl, by decide, by decide, by decide, by decide, by decide, by decide⟩
  · rw [if_neg hm]
    unfold natChars
    cases hds : dsOf m.natAbs with
    | nil => exact absurd hds (dsOf_ne_nil _)
    | cons d ds =>
      have hd : d < 10 := dsOf_lt _ d (by rw [hds]; simp)
      have hok := digitCh_ok d hd
      exact ⟨digitCh d, ds.map digitCh, by simp, hok.2.2.2.2.1, hok.2.2.2.2.2.1,
        hok.2.2.2.2.2.2.1, hok.2.2.2.2.2.2.2.1, hok.2.2.2.2.2.2.2.2.1,
        hok.2.2.2.2.2.2.2.2.2.1⟩

theorem elems_shape (x : Json) (xs : List Json) : ∃ c z,
    stringifyElems (x :: xs) = c :: z ∧ c ≠ ']' := by
  obtain ⟨c, t, hsh, _, hrb, _⟩ := stringify_head x
  cases xs with
  | nil => exact ⟨c, t, by simp [stringifyElems, hsh], hrb⟩
  | cons y ys =>
    refine ⟨c, t ++ ',' :: stringifyElems (y :: ys), ?_, hrb⟩
    show stringifyChars x ++ ',' :: stringifyElems (y :: ys) = _
    rw [hsh]
    simp

theorem fields_shape (p : String × Json) (kvs : List (String × Json)) : ∃ z,
    stringifyFields (p :: kvs) = '"' :: z := by
  obtain ⟨k, v⟩ := p
  cases kvs with
  | nil =>
    refine ⟨k.data.flatMap escChar ++ '"' :: ':' :: stringifyChars v, ?_⟩
    show strLit k.data ++ ':' :: stringifyChars v = _
    unfold strLit
    simp
  | cons q qs =>
    refine ⟨k.data.flatMap escChar ++ '"' :: ':' :: (stringifyChars v ++
      ',' :: stringifyFields (q :: qs)), ?_⟩
    show strLit k.data ++ ':' :: stringifyChars v ++ ',' :: stringifyFields (q :: qs) = _
    unfold strLit
    simp

theorem parseVal_null (n : Nat) (r : List Char) :
    parseVal (n + 1) ('n' :: 'u' :: 'l' :: 'l' :: r) = some (.null, r) := by
  simp [parseVal]

theorem parseVal_true (n : Nat) (r : List Char) :
    parseVal (n + 1) ('t' :: 'r' :: 'u' :: 'e' :: r) = some (.bool true, r) := by
  simp [parseVal]

theorem parseVal_false (n : Nat) (r : List Char) :
    parseVal (n + 1) ('f' :: 'a' :: 'l' :: 's' :: 'e' :: r) = some (.bool false, r) := by
  simp [parseVal]

theorem parseVal_quote (n : Nat) (r : List Char) :
    parseVal (n + 1) ('"' :: r) =
      match parseStringRest r with
      | none => none
      | some (cs, r2) => some (.str (String.mk cs), r2) := by
  simp [parseVal]

theorem parseVal_arr_nil (n : Nat) (r : List Char) :
    parseVal (n + 1) ('[' :: ']' :: r) = some (.arr [], r) := by
  simp [parseVal]

theorem parseVal_arr_go (n : Nat) (c0 : Char) (W : List Char) (h : c0 ≠ ']') :
    parseVal (n + 1) ('[' :: c0 :: W) =
      match parseElems n (c0 :: W) with
      | none => none
      | some (vs, r2) => some (.arr vs, r2) := by
  simp only [parseVal]
  rw [if_neg (by decide : ¬('[' = '"'))]
  simp only [reduceIte]
  split
  · next r2 heq => exact absurd (List.head_eq_of_cons_eq heq) h
  · rfl

theorem parseVal_obj_nil (n : Nat) (r : List Char) :
    parseVal (n + 1) ('\x7b' :: '\x7d' :: r) = some (.obj [], r) := by
  simp [parseVal]

theorem parseVal_obj_go (n : Nat) (c0 : Char) (W : List Char) (h : c0 ≠ '\x7d') :
    parseVal (n + 1) ('\x7b' :: c0 :: W) =
      match parseFields n (c0 :: W) with
      | none => none
      | some (kvs, r2) => some (.obj kvs, r2) := by
  simp only [parseVal]
  rw [if_neg (by decide : ¬('\x7b' = '"')), if_neg (by decide : ¬('\x7b' = '['))]
  simp only [reduceIte]
  split
  · next r2 heq => exact absurd (List.head_eq_of_cons_eq heq) h
  · rfl

theorem parseVal_other (n : Nat) (c : Char) (r : List Char)
    (h1 : c ≠ '"') (h2 : c ≠ '[') (h3 : c ≠ '\x7b') (h4 : c ≠ 'n')
    (h5 : c ≠ 't') (h6 : c ≠ 'f') :
    parseVal (n + 1) (c :: r) = parseNumber (c :: r) := by
  simp only [parseVal, if_neg h1, if_neg h2, if_neg h3, if_neg h4, if_neg h5, if_neg h6]

theorem parseFields_quote (n : Nat) (s2 : List Char) :
    parseFields (n + 1) ('"' :: s2) =
      match parseStringRest s2 with
      | some (k, ':' :: r) =>
        match parseVal n r with
        | some (v, ',' :: r2) =>
          match parseFields n r2 with
          | some (kvs, r3) => some ((String.mk k, v) :: kvs, r3)
          | none => none
        | some (v, '\x7d' :: r2) => some ([(String.mk k, v)], r2)
        | _ => none
      | _ => none := by
  simp [parseFields]

/-- Full mutual round trip of the modelled JSON codec at any sufficient
fuel: reading back a stringified value consumes exactly its characters. -/
theorem parse_roundtrip : ∀ n : Nat,
    (∀ v rest, weight v ≤ n → jBoundary rest →
      parseVal n (stringifyChars v ++ rest) = some (v, rest)) ∧
    (∀ xs rest, xs ≠ [] → weightL xs ≤ n →
      parseElems n (stringifyElems xs ++ ']' :: rest) = some (xs, rest)) ∧
    (∀ kvs rest, kvs ≠ [] → weightF kvs ≤ n →
      parseFields n (stringifyFields kvs ++ '\x7d' :: rest) = some (kvs, rest)) := by
  intro n
  induction n with
  | zero =>
    refine ⟨?_, ?_, ?_⟩
    · intro v rest hw _
      exact absurd hw (by have := weight_pos v; omega)
    · intro xs rest _ hw
      exact absurd hw (by have := weightL_pos xs; omega)
    · intro kvs rest _ hw
      exact absurd hw (by have := weightF_pos kvs; omega)
  | succ n ih =>
    obtain ⟨ihV, ihL, ihF⟩ := ih
    refine ⟨?_, ?_, ?_⟩
    · intro v rest hw hb
      cases v with
      | null =>
        show parseVal (n + 1) (['n', 'u', 'l', 'l'] ++ rest) = _
        simpa using parseVal_null n rest
      | bool b =>
        cases b with
        | true =>
          show parseVal (n + 1) (['t', 'r', 'u', 'e'] ++ rest) = _
          simpa using parseVal_true n rest
        | false =>
          show parseVal (n + 1) (['f', 'a', 'l', 's', 'e'] ++ rest) = _
          simpa using parseVal_false n rest
      | num m =>
        obtain ⟨c, t, hsh, h1, h2, h3, h4, h5, h6⟩ := intChars_head m
        show parseVal (n + 1) (intChars m ++ rest) = _
        rw [hsh, List.cons_append, parseVal_other n c (t ++ rest) h1 h2 h3 h4 h5 h6]
        rw [← List.cons_append, ← hsh]
        exact parseNumber_roundtrip m rest hb
      | str t =>
        show parseVal (n + 1) (strLit t.data ++ rest) = _
        have hshape : strLit t.data ++ rest =
            '"' :: (t.data.flatMap escChar ++ '"' :: rest) := by
          unfold strLit
          simp
        rw [hshape, parseVal_quote, psr_roundtrip t.data rest]
      | arr xs =>
        cases xs with
        | nil =>
          show parseVal (n + 1) (['[', ']'] ++ rest) = _
          simpa using parseVal_arr_nil n rest
        | cons x xs =>
          have hwL : weightL (x :: xs) ≤ n := by
            simp only [weight] at hw; omega
          obtain ⟨c0, z, hz, hc0⟩ := elems_shape x xs
          have hshape : stringifyChars (.arr (x :: xs)) ++ rest =
              '[' :: (stringifyElems (x :: xs) ++ ']' :: rest) := by
            show ('[' :: stringifyElems (x :: xs)) ++ [']'] ++ rest = _
            simp
          have hE : stringifyElems (x :: xs) ++ ']' :: rest =
              c0 :: (z ++ ']' :: rest) := by rw [hz]; simp
          have hrec := ihL (x :: xs) rest (by simp) hwL
          rw [hE] at hrec
          rw [hshape, hE, parseVal_arr_go n c0 (z ++ ']' :: rest) hc0, hrec]
      | obj kvs =>
        cases kvs with
        | nil =>
          show parseVal (n + 1) (['\x7b', '\x7d'] ++ rest) = _
          simpa using parseVal_obj_nil n rest
        | cons p kvs =>
          have hwF : weightF (p :: kvs) ≤ n := by
            simp only [weight] at hw; omega
          obtain ⟨z, hz⟩ := fields_shape p kvs
          have hshape : stringifyChars (.obj (p :: kvs)) ++ rest =
              '\x7b' :: (stringifyFields (p :: kvs) ++ '\x7d' :: rest) := by
            show ('\x7b' :: stringifyFields (p :: kvs)) ++ ['\x7d'] ++ rest = _
            simp
          have hE : stringifyFields (p :: kvs) ++ '\x7d' :: rest =
              '"' :: (z ++ '\x7d' :: rest) := by rw [hz]; simp
          have hrec := ihF (p :: kvs) rest (by simp) hwF
          rw [hE] at hrec
          rw [hshape, hE, parseVal_obj_go n '"' (z ++ '\x7d' :: rest) (by decide), hrec]
    · intro xs rest hne hw
      cases xs with
      | nil => exact absurd rfl hne
      | cons x xs =>
        cases xs with
        | nil =>
          have hwx : weight x ≤ n := by
            simp only [weightL] at hw; omega
          show parseElems (n + 1) (stringifyChars x ++ ']' :: rest) = _
          simp only [parseElems]
          rw [ihV x (']' :: rest) hwx (jb_rbracket rest)]
          simp
        | cons y ys =>
          have hwx : weight x ≤ n := by
            have := weightL_pos (y :: ys)
            simp only [weightL] at hw ⊢; omega
          have hwL : weightL (y :: ys) ≤ n := by
            have := weight_pos x
            simp only [weightL] at hw ⊢; omega
          have hshape : stringifyElems (x :: y :: ys) ++ ']' :: rest =
              stringifyChars x ++ ',' :: (stringifyElems (y :: ys) ++ ']' :: rest) := by
            show stringifyChars x ++ ',' :: stringifyElems (y :: ys) ++ ']' :: rest = _
            simp
          rw [hshape]
          simp only [parseElems]
          rw [ihV x (',' :: (stringifyElems (y :: ys) ++ ']' :: rest)) hwx
            (jb_comma _)]
          simp only [ihL (y :: ys) rest (by simp) hwL]
    · intro kvs rest hne hw
      cases kvs with
      | nil => exact absurd rfl hne
      | cons p kvs =>
        obtain ⟨k, v⟩ := p
        cases kvs with
        | nil =>
          have hwv : weight v ≤ n := by
            simp only [weightF] at hw; omega
          have hshape : stringifyFields [(k, v)] ++ '\x7d' :: rest =
              '"' :: (k.data.flatMap escChar ++ '"' ::
                (':' :: (stringifyChars v ++ '\x7d' :: rest))) := by
            show strLit k.data ++ ':' :: stringifyChars v ++ '\x7d' :: rest = _
            unfold strLit
            simp
          rw [hshape, parseFields_quote,
            psr_roundtrip k.data (':' :: (stringifyChars v ++ '\x7d' :: rest))]
          simp only [ihV v ('\x7d' :: rest) hwv (jb_rbrace rest)]
        | cons q qs =>
          have hwv : weight v ≤ n := by
            have := weightF_pos (q :: qs)
            simp only [weightF] at hw ⊢; omega
          have hwF : weightF (q :: qs) ≤ n := by
            have := weight_pos v
            simp only [weightF] at hw ⊢; omega
          have hshape : stringifyFields ((k, v) :: q :: qs) ++ '\x7d' :: rest =
              '"' :: (k.data.flatMap escChar ++ '"' ::
                (':' :: (stringifyChars v ++
                  ',' :: (stringifyFields (q :: qs) ++ '\x7d' :: rest)))) := by
            show strLit k.data ++ ':' :: stringifyChars v ++
              ',' :: stringifyFields (q :: qs) ++ '\x7d' :: rest = _
            unfold strLit
            simp
          rw [hshape, parseFields_quote,
            psr_roundtrip k.data
              (':' :: (stringifyChars v ++ ',' :: (stringifyFields (q :: qs) ++ '\x7d' :: rest)))]
          simp only [ihV v (',' :: (stringifyFields (q :: qs) ++ '\x7d' :: rest)) hwv
            (jb_comma _)]
          simp only [ihF (q :: qs) rest (by simp) hwF]

theorem intChars_ne_nil (m : Int) : intChars m ≠ [] := by
  unfold intChars
  by_cases hm : m < 0
  · rw [if_pos hm]; simp
  · rw [if_neg hm]; exact natChars_ne_nil _

/- Budget bound: the parser's fuel need never exceeds twice the printed
length, so the decoder's fixed budget of 2n+2 always suffices. -/
mutual

theorem wb_val : ∀ v : Json, weight v + 1 ≤ 2 * (stringifyChars v).length
  | .null => by simp [weight, stringifyChars]
  | .bool true => by simp [weight, stringifyChars]
  | .bool false => by simp [weight, stringifyChars]
  | .num m => by
    have h : intChars m ≠ [] := intChars_ne_nil m
    have : 1 ≤ (intChars m).length := by
      cases hm : intChars m with
      | nil => exact absurd hm h
      | cons a l => simp
    simp only [weight, stringifyChars]
    omega
  | .str t => by
    simp only [weight, stringifyChars]
    unfold strLit
    simp
  | .arr xs => by
    have h := wb_elems xs
    simp only [weight, stringifyChars]
    simp only [List.cons_append, List.length_cons, List.length_append,
      List.length_singleton]
    omega
  | .obj kvs => by
    have h := wb_fields kvs
    simp only [weight, stringifyChars]
    simp only [List.cons_append, List.length_cons, List.length_append,
      List.length_singleton]
    omega

theorem wb_elems : ∀ xs : List Json, weightL xs ≤ 2 * (stringifyElems xs).length + 1
  | [] => by simp [weightL, stringifyElems]
  | [x] => by
    have h1 := wb_val x
    have h3 : weightL [x] = weight x + weightL [] + 1 := rfl
    have h4 : weightL ([] : List Json) = 1 := rfl
    have hlen : (stringifyElems [x]).length = (stringifyChars x).length := rfl
    omega
  | x :: y :: ys => by
    have h1 := wb_val x
    have h2 := wb_elems (y :: ys)
    have h3 : weightL (x :: y :: ys) = weight x + weightL (y :: ys) + 1 := rfl
    have hlen : (stringifyElems (x :: y :: ys)).length =
        (stringifyChars x).length + 1 + (stringifyElems (y :: ys)).length := by
      rw [show stringifyElems (x :: y :: ys) =
        stringifyChars x ++ ',' :: stringifyElems (y :: ys) from rfl]
      simp [List.length_append]
      omega
    omega

theorem wb_fields : ∀ kvs : List (String × Json),
    weightF kvs ≤ 2 * (stringifyFields kvs).length + 1
  | [] => by simp [weightF, stringifyFields]
  | [(k, v)] => by
    have h1 := wb_val v
    have h3 : weightF [(k, v)] = weight v + weightF [] + 1 := rfl
    have h4 : weightF ([] : List (String × Json)) = 1 := rfl
    have hlen : (stringifyFields [(k, v)]).length =
        (strLit k.data).length + 1 + (stringifyChars v).length := by
      rw [show stringifyFields [(k, v)] =
        strLit k.data ++ ':' :: stringifyChars v from rfl]
      simp [List.length_append]
      omega
    omega
  | (k, v) :: q :: qs => by
    have h1 := wb_val v
    have h2 := wb_fields (q :: qs)
    have h3 : weightF ((k, v) :: q :: qs) = weight v + weightF (q :: qs) + 1 := rfl
    have hlen : (stringifyFields ((k, v) :: q :: qs)).length =
        (strLit k.data).length + 1 + (stringifyChars v).length + 1 +
          (stringifyFields (q :: qs)).length := by
      rw [show stringifyFields ((k, v) :: q :: qs) =
        strLit k.data ++ ':' :: stringifyChars v ++ ',' :: stringifyFields (q :: qs)
        from rfl]
      simp [List.length_append]
      omega
    omega

end

/-- Decoding a stringified value with the decoder's own budget gives the
value back: the JSON codec round trip at the field level. -/
theorem jsonParseOrRaw_stringify (v : Json) :
    jsonParseOrRaw (stringifyChars v) = v := by
  have hb := wb_val v
  have hw : weight v ≤ 2 * (stringifyChars v).length + 2 := by omega
  have h := (parse_roundtrip (2 * (stringifyChars v).length + 2)).1 v [] hw jb_nil
  rw [List.append_nil] at h
  unfold jsonParseOrRaw
  rw [h]

theorem jsonParseOrRaw_nil : jsonParseOrRaw [] = .str "" := rfl

/-- Wire line built by `send` (source lines 356-361):
`[call_name].concat(args.map(JSON.stringify)).concat('\n').join('\t')`.
The newline is an extra joined entry, so a tab lands before it. -/
def sendLine (call_name : String) (args : List Json) : List Char :=
  List.intercalate ['\t'] ([call_name.data] ++ args.map stringifyChars ++ [['\n']])

/-- Record computed by `emit_line` (source lines 321-331) from one
newline-free line: the regex  ^\s*(\S+)\s+([\S\s]*)$  names the record by
its first whitespace-free run; the remainder splits on tabs into fields
decoded by `jsonParseOrRaw`.  When the regex fails to match, the whole
line is the name and there are no fields. -/
def emit_line_record (line : List Char) : String × List Json :=
  let l1 := line.dropWhile (fun c => jsWs c)
  let nm := l1.takeWhile (fun c => !jsWs c)
  let rest := l1.dropWhile (fun c => !jsWs c)
  if nm = [] ∨ rest = [] then (String.mk line, [])
  else (String.mk nm,
    (splitOn '\t' (rest.dropWhile (fun c => jsWs c))).map jsonParseOrRaw)

/- Registry items.  A JS schema entry is an object whose fields depend on
how it was created; absent fields are `none` and dereferencing them where
the source would throw a TypeError is modelled explicitly. -/
structure Item where
  action_name : Option String := none
  type_name : Option String := none
  action_type : Option Json := none
  event_type : Option Json := none
  values : Option (List Json) := none
  object_properties : Option (List (String × Json)) := none
  object_values : Option (List (String × Json)) := none
  param_names : Option (List Json) := none
  param_types : Option (List Json) := none
  listeners : List Nat := []
  requested : Bool := false
  complete : Bool := false
deriving DecidableEq, Repr

/-- The registry: keys in insertion order, as JS object keys enumerate. -/
abbrev Schema := List (String × Item)

/-- Property read on a JS-object-like association list. -/
def alookup {α : Type} : List (String × α) → String → Option α
  | [], _ => none
  | (k', v') :: rest, k => if k' = k then some v' else alookup rest k

/-- Property write: replaces in place, or appends a new key at the end. -/
def aset {α : Type} : List (String × α) → String → α → List (String × α)
  | [], k, v => [(k, v)]
  | (k', v') :: rest, k, v =>
    if k' = k then (k, v) :: rest else (k', v') :: aset rest k v

def slookup (sc : Schema) (k : String) : Option Item := alookup sc k

def supdate (sc : Schema) (k : String) (it : Item) : Schema := aset sc k it

/-- JS truthiness of a decoded value. -/
def jsTruthy : Json → Bool
  | .null => false
  | .bool b => b
  | .num n => n ≠ 0
  | .str t => t ≠ ""
  | .arr _ => true
  | .obj _ => true

def optTruthy : Option Json → Bool
  | none => false
  | some v => jsTruthy v

/- String(v) coercion, used for JS property keys and numeric reads.
Arrays print as their comma-joined elements with null showing empty;
plain objects print as the usual object tag. -/
mutual

def jsToStringChars : Json → List Char
  | .null => 'n' :: 'u' :: 'l' :: 'l' :: []
  | .bool true => 't' :: 'r' :: 'u' :: 'e' :: []
  | .bool false => 'f' :: 'a' :: 'l' :: 's' :: 'e' :: []
  | .num n => intChars n
  | .str t => t.data
  | .arr xs => jsArrStr xs
  | .obj _ => "[object Object]".data

def jsArrStr : List Json → List Char
  | [] => []
  | [x] => jsElemStr x
  | x :: y :: ys => jsElemStr x ++ ',' :: jsArrStr (y :: ys)

def jsElemStr : Json → List Char
  | .null => []
  | .bool true => 't' :: 'r' :: 'u' :: 'e' :: []
  | .bool false => 'f' :: 'a' :: 'l' :: 's' :: 'e' :: []
  | .num n => intChars n
  | .str t => t.data
  | .arr xs => jsArrStr xs
  | .obj _ => "[object Object]".data

end

def jsToString (v : Json) : String := String.mk (jsToStringChars v)

/-- JS property-key coercion of a handler argument; a missing argument is
`undefined`, whose key is the text "undefined". -/
def jsToKey : Option Json → String
  | none => "undefined"
  | some v => jsToString v

/-- Bracket stripping shared by `completeItem` and the help handler:
`name.charAt(0) == '[' ? name.substring(1, name.length - 1) : name`. -/
def stripBrackets (t : String) : String :=
  if t.data.head? = some '[' then String.mk (t.data.drop 1).dropLast else t

/-- Effects observable outside the handlers. -/
inductive Output where
  | send (line : List Char)
  | emit (name : String) (args : List Json)
  | errorEmit
  | resolve (w : Nat)
deriving DecidableEq, Repr

/-- Line sent by `completeItem`'s help query:
`send(shell, 'help', [item.action_name || item.type_name])`.  When both
fields are absent, JSON.stringify(undefined) is undefined and the join
renders it as an empty field. -/
def helpQueryLine (arg : Option String) : List Char :=
  match arg with
  | some a => sendLine "help" [Json.str a]
  | none => 'h' :: 'e' :: 'l' :: 'p' :: '\t' :: '\t' :: '\n' :: []

/-- `completeItem` (source lines 337-351): strips brackets, resolves at
once when the entry is absent or complete, otherwise queues the waiter and
transmits one help query guarded by the `requested` flag.  The Bool result
is true when the continuation stays queued. -/
def completeItem (sc : Schema) (name : String) (w : Nat) :
    Schema × List Output × Bool :=
  let item_name := stripBrackets name
  match slookup sc item_name with
  | none => (sc, [], false)
  | some item =>
    if item.complete then (sc, [], false)
    else
      let queued := {item with listeners := item.listeners ++ [w]}
      if item.requested then (supdate sc item_name queued, [], true)
      else
        (supdate sc item_name {queued with requested := true},
         [.send (helpQueryLine (item.action_name <|> item.type_name))], true)

/-- The `helpEnd` handler on one record (source lines 142-150): marks the
entry complete and drains its waiter queue front first. -/
def helpEndCore (sc : Schema) (key : String) : Schema × List Nat :=
  match slookup sc key with
  | none => (sc, [])
  | some item =>
    (supdate sc key {item with complete := true, listeners := []}, item.listeners)

/-- Result of the `help` handler: the registry after the record, flagged
when a TypeError escaped (the state carries any writes made before the
throw, since the catch in the data handler does not roll back). -/
inductive HRes where
  | ok (sc : Schema)
  | err (sc : Schema)
deriving DecidableEq, Repr

def HRes.state : HRes → Schema
  | .ok sc => sc
  | .err sc => sc

def freshTypeItem (tn : String) : Item :=
  { type_name := some tn, values := some [], object_properties := some [],
    object_values := some [], listeners := [], requested := false,
    complete := false }

def freshActionItem (an : String) : Item :=
  { action_name := some an, param_names := some [], param_types := some [],
    listeners := [], requested := false, complete := false }

/-- The `help` handler (source lines 72-141).  Handler parameters are the
decoded record fields; a record shorter than four fields leaves the
missing parameters `undefined` (`none`).  Branches in source order: a
truthy `type` adds a property/parameter to the owner entry and registers
the field's (bracket-stripped) type; an owner with a truthy `action_type`
registers a new action; the literal owners "actions"/"events" register
category buckets; any other known owner collects an enum value. -/
def helpHandler (sc : Schema) (m n t d : Option Json) : HRes :=
  if optTruthy t then
    match slookup sc (jsToKey m) with
    | none => .err sc
    | some item =>
      let kn := jsToKey n
      let tj := t.getD Json.null
      let item1 := {item with
        object_properties := item.object_properties.map (fun ps => aset ps kn tj),
        object_values := item.object_values.map (fun ovs =>
          aset ovs kn (d.getD Json.null)),
        param_names := item.param_names.map (fun l => l ++ [n.getD Json.null]),
        param_types := item.param_types.map (fun l => l ++ [tj])}
      let sc1 := supdate sc (jsToKey m) item1
      match tj with
      | .str ts =>
        let tn := stripBrackets ts
        if (slookup sc1 tn).isSome then .ok sc1
        else .ok (supdate sc1 tn (freshTypeItem tn))
      | _ => .err sc1
  else if (match slookup sc (jsToKey m) with
           | some item => optTruthy item.action_type
           | none => false) then
    let an := jsToKey n
    match slookup sc an with
    | some _ => .ok sc
    | none => .ok (supdate sc an (freshActionItem an))
  else if m = some (Json.str "actions") then
    let kn := jsToKey n
    match slookup sc kn with
    | some _ => .ok sc
    | none => .ok (supdate sc kn
        { action_type := n, values := some [], listeners := [],
          requested := false, complete := false })
  else if m = some (Json.str "events") then
    let kn := jsToKey n
    match slookup sc kn with
    | some _ => .ok sc
    | none => .ok (supdate sc kn
        { event_type := n, values := some [], listeners := [],
          requested := false, complete := false })
  else
    match slookup sc (jsToKey m) with
    | some item =>
      match item.values with
      | none => .err sc
      | some vs =>
        .ok (supdate sc (jsToKey m) {item with values := vs ++ [n.getD Json.null]})
    | none => .ok sc

/-- The shell `close` handler (source lines 46-55): every entry is removed,
waiters of incomplete entries are force-resolved in key order, and one
`exit` notification is emitted. -/
def closeDrain : Schema → List Nat
  | [] => []
  | (_, it) :: rest => (if it.complete then [] else it.listeners) ++ closeDrain rest

def closeHandler (sc : Schema) : Schema × List Nat × List Output :=
  ([], closeDrain sc, [.emit "exit" []])

/-- Strict equality (===) as used by the enum membership check.  For
arrays and objects, === compares references; the registry's enum values
and a caller's argument are never the same allocation, so structured
operands compare unequal. -/
def jsStrictEq : Json → Json → Bool
  | .null, .null => true
  | .bool a, .bool b => a == b
  | .num a, .num b => a == b
  | .str a, .str b => a == b
  | _, _ => false

/-- `typeof v == 'object'` restricted to non-null values. -/
def isStructured : Json → Bool
  | .arr _ => true
  | .obj _ => true
  | _ => false

/-- `Object.entries(v)`: for arrays the indices become string keys. -/
def jsEntries : Json → List (String × Json)
  | .obj kvs => kvs
  | .arr xs => xs.enum.map (fun p => (String.mk (natChars p.1), p.2))
  | _ => []

/- Deep structural equality in the strict mode of the node assert module:
primitives compare by ===, arrays by length and position, objects by key
set and per-key recursion. -/
mutual

def jsDeepEqual : Json → Json → Bool
  | .null, .null => true
  | .bool a, .bool b => a == b
  | .num a, .num b => a == b
  | .str a, .str b => a == b
  | .arr xs, .arr ys => xs.length == ys.length && jsDeepEqualL xs ys
  | .obj kvs, .obj kvs2 => kvs.length == kvs2.length && jsDeepEqualF kvs kvs2
  | _, _ => false

def jsDeepEqualL : List Json → List Json → Bool
  | [], _ => true
  | _ :: _, [] => false
  | x :: xs, y :: ys => jsDeepEqual x y && jsDeepEqualL xs ys

def jsDeepEqualF : List (String × Json) → List (String × Json) → Bool
  | [], _ => true
  | (k, v) :: rest, kvs2 =>
    (match alookup kvs2 k with
     | some v2 => jsDeepEqual v v2
     | none => false) && jsDeepEqualF rest kvs2

end

/-- Rational value of a decimal digit string read most significant first. -/
def digitsVal (ds : List Char) : Nat :=
  ds.foldl (fun a c => a * 10 + digitVal c) 0

/-- Leading numeral read of JS parseFloat, restricted to plain decimal
forms (sign, digits, optional fraction); exponents and infinities are
outside the model.  Returns none (NaN) when no digit starts the input. -/
def parseFloatChars (s : List Char) : Option Rat :=
  let s1 := s.dropWhile (fun c => jsWs c)
  let core := fun (u : List Char) =>
    let ip := u.takeWhile (fun c => isDigit c)
    let r1 := u.dropWhile (fun c => isDigit c)
    let fp := match r1 with
      | '.' :: r2 => r2.takeWhile (fun c => isDigit c)
      | _ => []
    if ip = [] ∧ fp = [] then none
    else some ((digitsVal ip : Rat) + (digitsVal fp : Rat) / ((10 : Rat) ^ fp.length))
  match s1 with
  | '-' :: u => (core u).map (fun q => -q)
  | '+' :: u => core u
  | u => core u

/-- ToNumber on a string: empty or all-whitespace text is zero, otherwise
the whole trimmed text must be one plain decimal numeral. -/
def strToNumber (s : List Char) : Option Rat :=
  let s1 := (s.dropWhile (fun c => jsWs c)).reverse.dropWhile (fun c => jsWs c) |>.reverse
  if s1 = [] then some 0
  else
    let withSign := fun (u : List Char) =>
      let ip := u.takeWhile (fun c => isDigit c)
      let r1 := u.dropWhile (fun c => isDigit c)
      match r1 with
      | [] => if ip = [] then none else some ((digitsVal ip : Rat))
      | '.' :: r2 =>
        let fp := r2.takeWhile (fun c => isDigit c)
        let r3 := r2.dropWhile (fun c => isDigit c)
        if r3 = [] ∧ ¬(ip = [] ∧ fp = []) then
          some ((digitsVal ip : Rat) + (digitsVal fp : Rat) / ((10 : Rat) ^ fp.length))
        else none
      | _ => none
    match s1 with
    | '-' :: u => (withSign u).map (fun q => -q)
    | '+' :: u => withSign u
    | u => withSign u

/-- ToNumber coercion of `+value`: null is zero, booleans are 0/1, arrays
coerce through their string form, plain objects are NaN. -/
def toNumber : Json → Option Rat
  | .null => some 0
  | .bool true => some 1
  | .bool false => some 0
  | .num n => some ((n : Rat))
  | .str t => strToNumber t.data
  | .arr xs => strToNumber (jsArrStr xs)
  | .obj _ => none

/-- Number.parseFloat(value): the argument is coerced to its string form
first. -/
def parseFloatJs (v : Json) : Option Rat := parseFloatChars (jsToStringChars v)

/-- `isIncorrectPrimitive` (source lines 406-424), with NaN modelled as
`none` and numbers as rationals. -/
def isIncorrectPrimitive (type : Item) (value : Json) : Bool :=
  match type.type_name with
  | some "int" | some "Integer" | some "long" | some "Long" =>
    (parseFloatJs value).isNone || (toNumber value).isNone ||
      !(match toNumber value with
        | some q => q.den == 1
        | none => false)
  | some "double" | some "Double" =>
    (parseFloatJs value).isNone || (toNumber value).isNone
  | some "boolean" | some "Boolean" =>
    jsTruthy value && !(match value with
      | .bool _ => true
      | _ => false)
  | some "String" => isStructured value
  | _ => false

/-- Validation failures (and the two modelled TypeError shapes). -/
inductive VErr where
  | typeError
  | fuelOut
  | notArray
  | enumMismatch
  | unknownKey (ex : Json)
  | expectedObject
  | badPrimitive
deriving DecidableEq, Repr

/-- The corrected example object the unknown-key failure reports: the
declared defaults overlaid with the value's declared-key entries, in their
own order (source lines 386-390). -/
def overlayExample (defaults : List (String × Json))
    (entries : List (String × Json)) (declared : List String) : Json :=
  .obj ((entries.filter (fun e => declared.contains e.1)).foldl
    (fun acc e => aset acc e.1 e.2) defaults)

/-- Sequential first-failure fold, the shape of the source's awaited
reduce/Promise chains over element and field validations. -/
def firstErrSeq {α : Type} (f : α → Except VErr Unit) : List α → Except VErr Unit
  | [] => .ok ()
  | x :: xs =>
    match f x with
    | .ok () => firstErrSeq f xs
    | .error e => .error e

/-- `assertType` (source lines 366-401) with an explicit recursion budget;
each nesting level of the value costs one unit.  The branch order and the
short-circuit evaluation of each condition follow the source: array types
first, then enum membership, then the object-shape checks, then the
primitive check; null passes every branch that tests it. -/
def assertTypeF : Nat → Schema → String → Json → Except VErr Unit
  | 0, _, _, _ => .error .fuelOut
  | fuel + 1, sc, param_type, v =>
    match slookup sc (stripBrackets param_type) with
    | none => .ok ()
    | some type =>
      if param_type.data.head? = some '[' then
        match v with
        | .arr xs =>
          firstErrSeq (fun x =>
            match type.type_name with
            | none => .error .typeError
            | some tn => assertTypeF fuel sc tn x) xs
        | .null => .ok ()
        | _ => .error .notArray
      else
        match type.values with
        | none => .error .typeError
        | some vs =>
          if vs ≠ [] ∧ ¬ vs.any (fun w => jsStrictEq w v) then .error .enumMismatch
          else if v ≠ .null ∧ isStructured v then
            match type.object_properties with
            | none => .error .typeError
            | some ps =>
              if ps ≠ [] then
                let declared := ps.map (fun q => q.1)
                let entries := jsEntries v
                let exObj := overlayExample (type.object_values.getD []) entries declared
                if (entries.any (fun e => !declared.contains e.1)) ∧
                    ¬ jsDeepEqual v exObj then
                  .error (.unknownKey exObj)
                else
                  firstErrSeq (fun e =>
                    if declared.contains e.1 then
                      match alookup ps e.1 with
                      | some (.str fts) => assertTypeF fuel sc fts e.2
                      | some _ => .error .typeError
                      | none => .error .typeError
                    else .ok ()) entries
              else if isIncorrectPrimitive type v then .error .badPrimitive
              else .ok ()
          else if v = .null then .ok ()
          else
            match type.object_properties with
            | none => .error .typeError
            | some ps =>
              if ps ≠ [] then .error .expectedObject
              else if isIncorrectPrimitive type v then .error .badPrimitive
              else .ok ()

instance : DecidableEq (Except VErr Unit) := fun a b =>
  match a, b with
  | .ok (), .ok () => isTrue rfl
  | .error e1, .error e2 =>
    match decEq e1 e2 with
    | isTrue h => isTrue (by rw [h])
    | isFalse h => isFalse (fun x => h (by injection x))
  | .ok (), .error _ => isFalse (fun h => Except.noConfusion h)
  | .error _, .ok () => isFalse (fun h => Except.noConfusion h)

/-- Per-argument validation pass of a call, position by position; the
registered parameter types are decoded record fields, so a non-string
entry makes the nested completeItem throw. -/
def validateAllF (fuel : Nat) (sc : Schema) : List (Json × Json) → Except VErr Unit
  | [] => .ok ()
  | (pt, v) :: rest =>
    match (match pt with
           | .str pts => assertTypeF fuel sc pts v
           | _ => (.error .typeError : Except VErr Unit)) with
    | .ok () => validateAllF fuel sc rest
    | .error e => .error e

/-- How one invocation of a dynamically installed action method ends. -/
inductive CallOutcome where
  | resolved
  | suspended
  | failedCount
  | failedValidation (e : VErr)
  | closedError (name : String)
  | jsError
deriving DecidableEq, Repr

/-- One invocation of the dynamic action method (source lines 100-122).
`fin` is the `finished()` test, constant through the call because closure
is terminal.  With the transport open the call completes its schema entry
(suspending when the entry must wait), checks the argument count, then
validates each argument and transmits the line; with the transport closed
the whole first block is skipped and the outcome depends only on the
action name: exit resolves, isConnected emits a synthesized
not-connected notification, anything else throws. -/
def actionCall (fuel : Nat) (fin : Bool) (sc : Schema) (item0 : Item)
    (args : List Json) (w : Nat) : CallOutcome × Schema × List Output :=
  if fin then
    match item0.action_name with
    | some an =>
      if an = "exit" then (.resolved, sc, [])
      else if an = "isConnected" then
        (.resolved, sc, [.emit "isConnected" [.bool false]])
      else (.closedError an, sc, [])
    | none => (.jsError, sc, [])
  else
    match item0.action_name with
    | none => (.jsError, sc, [])
    | some an =>
      let r := completeItem sc an w
      if r.2.2 then (.suspended, r.1, r.2.1)
      else
        let item := (slookup r.1 (stripBrackets an)).getD item0
        match item.param_types with
        | none => (.jsError, r.1, r.2.1)
        | some pts =>
          if args.length ≠ pts.length then (.failedCount, r.1, r.2.1)
          else
            match validateAllF fuel r.1 (pts.zip args) with
            | .error e => (.failedValidation e, r.1, r.2.1)
            | .ok () => (.resolved, r.1, r.2.1 ++ [.send (sendLine an args)])

/-- Dispatch of one decoded record: `help` and `helpEnd` feed the schema
registry handlers, every other name is re-emitted to subscribers. -/
def handleRecord (sc : Schema) (name : String) (args : List Json) :
    HRes × List Output :=
  if name = "help" then
    match helpHandler sc (args.get? 0) (args.get? 1) (args.get? 2) (args.get? 3) with
    | .ok sc2 => (.ok sc2, [])
    | .err sc2 => (.err sc2, [])
  else if name = "helpEnd" then
    let r := helpEndCore sc (jsToKey (args.get? 0))
    (.ok r.1, r.2.map Output.resolve)
  else (.ok sc, [.emit name args])

/-- The forEach over split lines: every line but the last is emitted (and a
thrown handler error stops the loop, leaving the carry-over variable
untouched); the last fragment becomes the new carry-over. -/
def runLines (sc : Schema) : List (List Char) → Schema × List Output × Option (List Char)
  | [] => (sc, [], none)
  | [last] => (sc, [], some last)
  | l :: rest =>
    let rec1 := emit_line_record l
    match handleRecord sc rec1.1 rec1.2 with
    | (.ok sc2, outs) =>
      let r := runLines sc2 rest
      (r.1, outs ++ r.2.1, r.2.2)
    | (.err sc2, outs) => (sc2, outs ++ [.errorEmit], none)

/-- Client state seen by the shell data handler. -/
structure CState where
  schema : Schema
  buffer : List Char
deriving DecidableEq, Repr

/-- The shell `data` handler (source lines 60-71), embedded as written:
`(buffer ? `buffer${chunk}` : chunk).split('\n')` — when the carry-over is
non-empty the code prepends the literal word "buffer" (the template
literal names the variable inside text, not inside a placeholder), so the
retained fragment itself is discarded.  The caught-error path emits one
error event and abandons the remaining lines. -/
def dataHandler (st : CState) (chunk : List Char) : CState × List Output :=
  let s := if st.buffer ≠ [] then
    'b' :: 'u' :: 'f' :: 'f' :: 'e' :: 'r' :: chunk else chunk
  let r := runLines st.schema (splitOn '\n' s)
  ({schema := r.1, buffer := (r.2.2).getD st.buffer}, r.2.1)

theorem alookup_aset {α : Type} (l : List (String × α)) (k : String) (v : α) :
    alookup (aset l k v) k = some v := by
  induction l with
  | nil => simp [aset, alookup]
  | cons p rest ih =>
    unfold aset
    by_cases h : p.1 = k
    · rw [if_pos h]
      simp [alookup]
    · rw [if_neg h]
      show alookup ((p.1, p.2) :: aset rest k v) k = some v
      unfold alookup
      rw [if_neg h]
      exact ih

theorem alookup_aset_ne {α : Type} (l : List (String × α)) (k k' : String) (v : α)
    (h : k' ≠ k) : alookup (aset l k v) k' = alookup l k' := by
  induction l with
  | nil =>
    simp [aset, alookup]
    intro e
    exact absurd e.symm h
  | cons p rest ih =>
    unfold aset
    by_cases hp : p.1 = k
    · rw [if_pos hp]
      show alookup ((k, v) :: rest) k' = alookup (p :: rest) k'
      unfold alookup
      rw [if_neg (fun e => h e.symm), if_neg (by rw [hp]; exact fun e => h e.symm)]
    · rw [if_neg hp]
      show alookup ((p.1, p.2) :: aset rest k v) k' = alookup (p :: rest) k'
      unfold alookup
      by_cases hq : p.1 = k'
      · rw [if_pos hq, if_pos hq]
      · rw [if_neg hq, if_neg hq]
        exact ih

theorem closeDrain_mem (sc : Schema) (k : String) (item : Item)
    (hk : slookup sc k = some item) (hc : item.complete = false) :
    ∀ w ∈ item.listeners, w ∈ closeDrain sc := by
  intro w hw
  induction sc with
  | nil => simp [slookup, alookup] at hk
  | cons p rest ih =>
    unfold slookup alookup at hk
    unfold closeDrain
    by_cases hp : p.1 = k
    · rw [if_pos hp] at hk
      have : p.2 = item := by injection hk
      rw [this, hc]
      simp [hw]
    · rw [if_neg hp] at hk
      have hmem := ih hk
      exact List.mem_append.mpr (Or.inr hmem)

/-- C7: transport closure is terminal and drains waiters: after the close
handler runs, the registry is empty, exactly one exit notification was
emitted, and every waiter queued on any incomplete entry is resolved. -/
theorem c7_close_terminal (sc : Schema) :
    (closeHandler sc).1 = [] ∧
    (closeHandler sc).2.2 = [.emit "exit" []] ∧
    (∀ k item, slookup sc k = some item → item.complete = false →
      ∀ w ∈ item.listeners, w ∈ (closeHandler sc).2.1) := by
  refine ⟨rfl, rfl, ?_⟩
  intro k item hk hc w hw
  exact closeDrain_mem sc k item hk hc w hw

theorem c7_close_terminal_witness :
    slookup [("EClient", {freshTypeItem "EClient" with listeners := [5, 7]})]
        "EClient" = some {freshTypeItem "EClient" with listeners := [5, 7]} ∧
    (5 : Nat) ∈ (closeHandler
      [("EClient", {freshTypeItem "EClient" with listeners := [5, 7]})]).2.1 := by
  refine ⟨by decide, ?_⟩
  exact (c7_close_terminal _).2.2 "EClient"
    {freshTypeItem "EClient" with listeners := [5, 7]} (by decide) (by decide)
    5 (by decide)

/-- C4: invoking a discovered action after the transport has closed never
writes to the transport; exit resolves, isConnected resolves after
emitting a synthesized not-connected notification, and every other name
throws a descriptive error. -/
theorem c4_dead_transport (fuel : Nat) (sc : Schema) (item0 : Item)
    (args : List Json) (w : Nat) (an : String)
    (h : item0.action_name = some an) :
    actionCall fuel true sc item0 args w =
      (if an = "exit" then (.resolved, sc, [])
       else if an = "isConnected" then
         (.resolved, sc, [.emit "isConnected" [.bool false]])
       else (.closedError an, sc, [])) ∧
    (∀ l, Output.send l ∉ (actionCall fuel true sc item0 args w).2.2) := by
  constructor
  · unfold actionCall
    rw [if_pos rfl, h]
  · intro l
    unfold actionCall
    rw [if_pos rfl, h]
    by_cases h1 : an = "exit"
    · simp [h1]
    · by_cases h2 : an = "isConnected" <;> simp [h1, h2]

theorem c4_dead_transport_witness :
    (freshActionItem "placeOrder").action_name = some "placeOrder" ∧
    actionCall 1 true [] (freshActionItem "placeOrder") [Json.num 9] 0 =
      (.closedError "placeOrder", [], []) ∧
    actionCall 1 true [] (freshActionItem "exit") [] 0 = (.resolved, [], []) ∧
    actionCall 1 true [] (freshActionItem "isConnected") [] 0 =
      (.resolved, [], [.emit "isConnected" [.bool false]]) := by
  refine ⟨rfl, ?_, ?_, ?_⟩
  · rw [(c4_dead_transport 1 [] (freshActionItem "placeOrder") [Json.num 9] 0
      "placeOrder" rfl).1]
    decide
  · rw [(c4_dead_transport 1 [] (freshActionItem "exit") [] 0 "exit" rfl).1]
    decide
  · rw [(c4_dead_transport 1 [] (freshActionItem "isConnected") [] 0
      "isConnected" rfl).1]
    decide

/-- C9: when the transport is already closed at invocation time the whole
guarded block is skipped, so the parameter-count check and all argument
validation never run: the call's result is the same whatever arguments are
supplied, and it is never a count or validation failure — in particular
exit and isConnected succeed with arguments they would otherwise reject. -/
theorem c9_closed_skips_validation (fuel fuel2 : Nat) (sc : Schema)
    (item0 : Item) (args args2 : List Json) (w w2 : Nat) :
    actionCall fuel true sc item0 args w =
      actionCall fuel2 true sc item0 args2 w2 ∧
    (actionCall fuel true sc item0 args w).1 ≠ .failedCount ∧
    (∀ e, (actionCall fuel true sc item0 args w).1 ≠ .failedValidation e) := by
  refine ⟨?_, ?_, ?_⟩
  · unfold actionCall
    rw [if_pos rfl, if_pos rfl]
  · unfold actionCall
    rw [if_pos rfl]
    cases h : item0.action_name with
    | none => simp
    | some an =>
      by_cases h1 : an = "exit"
      · simp [h1]
      · by_cases h2 : an = "isConnected" <;> simp [h1, h2]
  · intro e
    unfold actionCall
    rw [if_pos rfl]
    cases h : item0.action_name with
    | none => simp
    | some an =>
      by_cases h1 : an = "exit"
      · simp [h1]
      · by_cases h2 : an = "isConnected" <;> simp [h1, h2]

/-- C5 counterexample: when the requested entry does not exist in the
registry, `completeItem` transmits nothing and resolves the requester at
once — no help query naming the entry goes out, contrary to the claim's
last clause. -/
theorem c5_counterexample :
    completeItem ([] : Schema) "reqIds" 0 = ([], [], false) := by
  decide

/-- C5 (amended): schema completion is idempotent and at most once for
entries that exist: the first incomplete, unrequested request queues the
waiter and transmits exactly one help query while setting `requested`; any
further request only queues; helpEnd then resolves all queued waiters in
first-in-first-out order.  When the entry does not exist, no query is
transmitted and the requester resolves immediately. -/
theorem c5_amended :
    (∀ (sc : Schema) (name : String) (w : Nat),
      slookup sc (stripBrackets name) = none →
      completeItem sc name w = (sc, [], false)) ∧
    (∀ (sc : Schema) (name : String) (w : Nat) (item : Item),
      slookup sc (stripBrackets name) = some item →
      item.complete = false → item.requested = false →
      completeItem sc name w =
        (supdate sc (stripBrackets name)
          {item with requested := true, listeners := item.listeners ++ [w]},
         [.send (helpQueryLine (item.action_name <|> item.type_name))], true)) ∧
    (∀ (sc : Schema) (name : String) (w : Nat) (item : Item),
      slookup sc (stripBrackets name) = some item →
      item.complete = false → item.requested = true →
      completeItem sc name w =
        (supdate sc (stripBrackets name)
          {item with listeners := item.listeners ++ [w]}, [], true)) ∧
    (∀ (sc : Schema) (name : String) (w1 w2 : Nat) (item : Item),
      slookup sc (stripBrackets name) = some item →
      item.complete = false → item.requested = false → item.listeners = [] →
      (completeItem sc name w1).2.1 =
        [.send (helpQueryLine (item.action_name <|> item.type_name))] ∧
      (completeItem (completeItem sc name w1).1 name w2).2.1 = [] ∧
      (helpEndCore (completeItem (completeItem sc name w1).1 name w2).1
        (stripBrackets name)).2 = [w1, w2]) := by
  have part1 : ∀ (sc : Schema) (name : String) (w : Nat),
      slookup sc (stripBrackets name) = none →
      completeItem sc name w = (sc, [], false) := by
    intro sc name w h
    unfold completeItem
    simp only [h]
  have part2 : ∀ (sc : Schema) (name : String) (w : Nat) (item : Item),
      slookup sc (stripBrackets name) = some item →
      item.complete = false → item.requested = false →
      completeItem sc name w =
        (supdate sc (stripBrackets name)
          {item with requested := true, listeners := item.listeners ++ [w]},
         [.send (helpQueryLine (item.action_name <|> item.type_name))], true) := by
    intro sc name w item h hc hr
    unfold completeItem
    simp only [h, hc, hr]
    rfl
  have part3 : ∀ (sc : Schema) (name : String) (w : Nat) (item : Item),
      slookup sc (stripBrackets name) = some item →
      item.complete = false → item.requested = true →
      completeItem sc name w =
        (supdate sc (stripBrackets name)
          {item with listeners := item.listeners ++ [w]}, [], true) := by
    intro sc name w item h hc hr
    unfold completeItem
    simp only [h, hc, hr]
    rfl
  refine ⟨part1, part2, part3, ?_⟩
  intro sc name w1 w2 item h hc hr hl
  have h1 := part2 sc name w1 item h hc hr
  have hlk1 : slookup (completeItem sc name w1).1 (stripBrackets name) =
      some {item with requested := true, listeners := item.listeners ++ [w1]} := by
    rw [h1]
    exact alookup_aset _ _ _
  have h2 := part3 (completeItem sc name w1).1 name w2
    {item with requested := true, listeners := item.listeners ++ [w1]}
    hlk1 (by simpa using hc) rfl
  have hlk2 : slookup (completeItem (completeItem sc name w1).1 name w2).1
      (stripBrackets name) =
      some {item with requested := true, listeners := (item.listeners ++ [w1]) ++ [w2]} := by
    rw [h2]
    exact alookup_aset _ _ _
  refine ⟨by rw [h1], by rw [h2], ?_⟩
  unfold helpEndCore
  rw [hlk2]
  simp [hl]

theorem c5_amended_witness :
    slookup [("EClient", freshTypeItem "EClient")] (stripBrackets "EClient") =
      some (freshTypeItem "EClient") ∧
    (completeItem [("EClient", freshTypeItem "EClient")] "EClient" 5).2.1 =
      [.send (helpQueryLine (some "EClient"))] ∧
    (helpEndCore
      (completeItem
        (completeItem [("EClient", freshTypeItem "EClient")] "EClient" 5).1
        "EClient" 7).1 (stripBrackets "EClient")).2 = [5, 7] := by
  have h := c5_amended.2.2.2 [("EClient", freshTypeItem "EClient")] "EClient" 5 7
    (freshTypeItem "EClient") (by decide) rfl rfl rfl
  exact ⟨by decide, h.1, h.2.2⟩

/-- The registry operations a record stream and the dispatcher perform:
a help record, a helpEnd record, or a completeItem request. -/
inductive SchemaOp where
  | helpRec (m n t d : Option Json)
  | helpEndRec (m : Option Json)
  | completeReq (name : String) (w : Nat)

def applyOp (sc : Schema) : SchemaOp → Schema
  | .helpRec m n t d => (helpHandler sc m n t d).state
  | .helpEndRec m => (helpEndCore sc (jsToKey m)).1
  | .completeReq name w => (completeItem sc name w).1

def applyOps (sc : Schema) (ops : List SchemaOp) : Schema :=
  ops.foldl applyOp sc

/-- Flag monotonicity between two registries: every entry survives with
its `requested` and `complete` flags never reverting. -/
def FlagsMono (sc sc2 : Schema) : Prop :=
  ∀ name item, slookup sc name = some item →
    ∃ item2, slookup sc2 name = some item2 ∧
      (item.requested = true → item2.requested = true) ∧
      (item.complete = true → item2.complete = true)

theorem flagsMono_refl (sc : Schema) : FlagsMono sc sc := by
  intro name item h
  exact ⟨item, h, fun x => x, fun x => x⟩

theorem flagsMono_trans {a b c : Schema} (h1 : FlagsMono a b) (h2 : FlagsMono b c) :
    FlagsMono a c := by
  intro name item h
  obtain ⟨i2, hl2, hr2, hc2⟩ := h1 name item h
  obtain ⟨i3, hl3, hr3, hc3⟩ := h2 name i2 hl2
  exact ⟨i3, hl3, fun x => hr3 (hr2 x), fun x => hc3 (hc2 x)⟩

theorem flagsMono_supdate (sc : Schema) (k : String) (it2 : Item)
    (h : ∀ it, slookup sc k = some it →
      (it.requested = true → it2.requested = true) ∧
      (it.complete = true → it2.complete = true)) :
    FlagsMono sc (supdate sc k it2) := by
  intro name item hn
  by_cases hk : name = k
  · subst hk
    exact ⟨it2, alookup_aset sc name it2, (h item hn).1, (h item hn).2⟩
  · exact ⟨item, by
      show alookup (aset sc k it2) name = some item
      rw [alookup_aset_ne sc k name it2 hk]
      exact hn, fun x => x, fun x => x⟩

theorem flagsMono_branch (sc sc1 : Schema) (tn : String)
    (hbase : FlagsMono sc sc1) :
    FlagsMono sc
      (if (slookup sc1 tn).isSome then sc1
       else supdate sc1 tn (freshTypeItem tn)) := by
  by_cases hp : (slookup sc1 tn).isSome
  · rw [if_pos hp]; exact hbase
  · rw [if_neg hp]
    refine flagsMono_trans hbase ?_
    apply flagsMono_supdate
    intro it hit
    exact absurd (Option.isSome_iff_exists.mpr ⟨it, hit⟩) hp

theorem flagsMono_step (sc : Schema) (op : SchemaOp) :
    FlagsMono sc (applyOp sc op) := by
  cases op with
  | completeReq name w =>
    show FlagsMono sc (completeItem sc name w).1
    unfold completeItem
    cases h : slookup sc (stripBrackets name) with
    | none => simp only [h]; exact flagsMono_refl sc
    | some item =>
      simp only [h]
      by_cases hc : item.complete = true
      · simp only [hc, if_true, reduceIte]
        exact flagsMono_refl sc
      · simp only [hc]
        by_cases hr : item.requested = true
        · simp only [hr, if_true, reduceIte]
          apply flagsMono_supdate
          intro it hit
          rw [h] at hit
          injection hit with hit
          subst hit
          exact ⟨fun _ => rfl, fun x => absurd x hc⟩
        · simp only [hr]
          apply flagsMono_supdate
          intro it hit
          rw [h] at hit
          injection hit with hit
          subst hit
          exact ⟨fun _ => rfl, fun x => absurd x hc⟩
  | helpEndRec m =>
    show FlagsMono sc (helpEndCore sc (jsToKey m)).1
    unfold helpEndCore
    cases h : slookup sc (jsToKey m) with
    | none => simp only [h]; exact flagsMono_refl sc
    | some item =>
      simp only [h]
      apply flagsMono_supdate
      intro it hit
      rw [h] at hit
      injection hit with hit
      subst hit
      exact ⟨fun x => x, fun _ => rfl⟩
  | helpRec m n t d =>
    show FlagsMono sc (helpHandler sc m n t d).state
    unfold helpHandler
    by_cases ht : optTruthy t = true
    · simp only [ht, if_true, reduceIte]
      cases h : slookup sc (jsToKey m) with
      | none => simp only [h]; exact flagsMono_refl sc
      | some item =>
        simp only [h]
        have base : FlagsMono sc (supdate sc (jsToKey m)
            {item with
              object_properties := item.object_properties.map
                (fun ps => aset ps (jsToKey n) (t.getD Json.null)),
              object_values := item.object_values.map
                (fun ovs => aset ovs (jsToKey n) (d.getD Json.null)),
              param_names := item.param_names.map (fun l => l ++ [n.getD Json.null]),
              param_types := item.param_types.map (fun l => l ++ [t.getD Json.null])}) := by
          apply flagsMono_supdate
          intro it hit
          rw [h] at hit
          injection hit with hit
          subst hit
          exact ⟨fun x => x, fun x => x⟩
        cases htj : t.getD Json.null with
        | str ts =>
          rw [htj] at base
          simp only [htj]
          rw [apply_ite HRes.state]
          simp only [HRes.state]
          exact flagsMono_branch sc _ _ base
        | null => rw [htj] at base; simp only [htj, HRes.state]; exact base
        | bool b => rw [htj] at base; simp only [htj, HRes.state]; exact base
        | num q => rw [htj] at base; simp only [htj, HRes.state]; exact base
        | arr xs => rw [htj] at base; simp only [htj, HRes.state]; exact base
        | obj kvs => rw [htj] at base; simp only [htj, HRes.state]; exact base
    · simp only [ht]
      by_cases hb2 : (match slookup sc (jsToKey m) with
                      | some item => optTruthy item.action_type
                      | none => false) = true
      · simp only [hb2, if_true, reduceIte]
        cases h2 : slookup sc (jsToKey n) with
        | some it => simp only [h2]; exact flagsMono_refl sc
        | none =>
          simp only [h2]
          apply flagsMono_supdate
          intro it hit
          rw [h2] at hit
          exact absurd hit (by simp)
      · simp only [hb2]
        by_cases ha : m = some (Json.str "actions")
        · simp only [ha, if_true, reduceIte]
          cases h2 : slookup sc (jsToKey n) with
          | some it => simp only [h2]; exact flagsMono_refl sc
          | none =>
            simp only [h2]
            apply flagsMono_supdate
            intro it hit
            rw [h2] at hit
            exact absurd hit (by simp)
        · simp only [ha]
          by_cases he : m = some (Json.str "events")
          · simp only [he, if_true, reduceIte]
            cases h2 : slookup sc (jsToKey n) with
            | some it => simp only [h2]; exact flagsMono_refl sc
            | none =>
              simp only [h2]
              apply flagsMono_supdate
              intro it hit
              rw [h2] at hit
              exact absurd hit (by simp)
          · simp only [he]
            cases h : slookup sc (jsToKey m) with
            | none => simp only [h]; exact flagsMono_refl sc
            | some item =>
              simp only [h]
              cases hv : item.values with
              | none => simp only [hv]; exact flagsMono_refl sc
              | some vs =>
                simp only [hv]
                apply flagsMono_supdate
                intro it hit
                rw [h] at hit
                injection hit with hit
                subst hit
                exact ⟨fun x => x, fun x => x⟩

/-- C8: across any sequence of help, helpEnd and completeItem operations,
an existing registry entry keeps existing and its `requested` and
`complete` flags only ever move from false to true. -/
theorem c8_monotonic_flags (ops : List SchemaOp) (sc : Schema)
    (name : String) (item : Item) (h : slookup sc name = some item) :
    ∃ item2, slookup (applyOps sc ops) name = some item2 ∧
      (item.requested = true → item2.requested = true) ∧
      (item.complete = true → item2.complete = true) := by
  induction ops generalizing sc item with
  | nil => exact ⟨item, h, fun x => x, fun x => x⟩
  | cons op ops ih =>
    obtain ⟨i2, hl2, hr2, hc2⟩ := flagsMono_step sc op name item h
    obtain ⟨i3, hl3, hr3, hc3⟩ := ih (applyOp sc op) i2 hl2
    exact ⟨i3, by simpa [applyOps] using hl3, fun x => hr3 (hr2 x),
      fun x => hc3 (hc2 x)⟩

theorem c8_monotonic_flags_witness :
    slookup [("EClient", {freshTypeItem "EClient" with requested := true, complete := true})] "EClient" = some {freshTypeItem "EClient" with requested := true, complete := true} ∧
    ∃ item2,
      slookup (applyOps
          [("EClient", {freshTypeItem "EClient" with requested := true, complete := true})]
          [.helpRec (some (.str "EClient")) (some (.str "f")) (some (.str "int")) none,
           .completeReq "EClient" 3]) "EClient" = some item2 ∧
      item2.requested = true ∧ item2.complete = true := by
  obtain ⟨item2, hl, hr, hc⟩ := c8_monotonic_flags
    [.helpRec (some (.str "EClient")) (some (.str "f")) (some (.str "int")) none,
     .completeReq "EClient" 3]
    [("EClient", {freshTypeItem "EClient" with requested := true, complete := true})]
    "EClient" {freshTypeItem "EClient" with requested := true, complete := true}
    (by decide)
  exact ⟨by decide, item2, hl, hr rfl, hc rfl⟩

/-- C3 counterexample: against a type whose descriptor carries a non-empty
enum-value set, the value null fails the membership check (the enum branch
has no null guard), so null is not accepted for every declared type. -/
theorem c3_counterexample :
    assertTypeF 1
      [("side", {freshTypeItem "side" with values := some [Json.str "A", Json.str "B"]})]
      "side" .null = .error .enumMismatch := by
  decide

/-- C3 (amended): null is accepted against array types, object types,
primitive types and unknown types, and against an enum type whose value
set is empty or strictly contains null; but a non-empty enum-value set not
containing null rejects null with the membership failure. -/
theorem c3_amended (n : Nat) (sc : Schema) (pt : String) :
    (slookup sc (stripBrackets pt) = none →
      assertTypeF (n + 1) sc pt .null = .ok ()) ∧
    (∀ type, slookup sc (stripBrackets pt) = some type →
      (pt.data.head? = some '[' → assertTypeF (n + 1) sc pt .null = .ok ()) ∧
      (pt.data.head? ≠ some '[' → ∀ vs, type.values = some vs →
        ((vs = [] ∨ vs.any (fun w => jsStrictEq w .null) = true) →
          assertTypeF (n + 1) sc pt .null = .ok ()) ∧
        (vs ≠ [] → vs.any (fun w => jsStrictEq w .null) = false →
          assertTypeF (n + 1) sc pt .null = .error .enumMismatch))) := by
  constructor
  · intro h
    unfold assertTypeF
    simp only [h]
  · intro type hlk
    constructor
    · intro hbr
      unfold assertTypeF
      simp only [hlk, hbr, if_true, reduceIte]
    · intro hbr vs hvs
      constructor
      · intro hpass
        have hcond : ¬(vs ≠ [] ∧ ¬(vs.any fun w => jsStrictEq w Json.null) = true) := by
          rcases hpass with he | hm
          · intro hand; exact hand.1 he
          · intro hand; exact hand.2 hm
        have hstruct : ¬(Json.null ≠ Json.null ∧ isStructured Json.null = true) := by
          intro hand; exact hand.1 rfl
        unfold assertTypeF
        simp only [hlk]
        rw [if_neg hbr]
        simp only [hvs]
        rw [if_neg hcond, if_neg hstruct]
        simp
      · intro hne hno
        have hcond : (vs ≠ [] ∧ ¬(vs.any fun w => jsStrictEq w Json.null) = true) :=
          ⟨hne, by rw [hno]; exact Bool.false_ne_true⟩
        unfold assertTypeF
        simp only [hlk]
        rw [if_neg hbr]
        simp only [hvs]
        rw [if_pos hcond]

theorem c3_amended_witness :
    (slookup [("side", {freshTypeItem "side" with values := some [Json.str "A", Json.str "B"]})] (stripBrackets "[side]") = some {freshTypeItem "side" with values := some [Json.str "A", Json.str "B"]}) ∧
    assertTypeF 3
      [("side", {freshTypeItem "side" with values := some [Json.str "A", Json.str "B"]})]
      "[side]" .null = .ok () ∧
    assertTypeF 3
      [("side", {freshTypeItem "side" with values := some [Json.str "A", Json.str "B"]})]
      "side" .null = .error .enumMismatch := by
  refine ⟨by decide, ?_, ?_⟩
  · exact ((c3_amended 2
      [("side", {freshTypeItem "side" with values := some [Json.str "A", Json.str "B"]})]
      "[side]").2 {freshTypeItem "side" with values := some [Json.str "A", Json.str "B"]}
      (by decide)).1 (by decide)
  · exact ((((c3_amended 2
      [("side", {freshTypeItem "side" with values := some [Json.str "A", Json.str "B"]})]
      "side").2 {freshTypeItem "side" with values := some [Json.str "A", Json.str "B"]}
      (by decide)).2 (by decide)) [Json.str "A", Json.str "B"] rfl).2
      (by decide) (by decide)

/-- C1: the partial-line buffering claim fails on the code.  The encoded
record `reqIds 1` fed whole decodes to one `reqIds` record, but fed as the
two chunks "req" + "Ids\t1\t\n" the second pass prepends the literal text
"buffer" (source line 62's template literal names the variable inside the
text), yielding a record named "bufferIds" instead; the trailing-fragment
retention itself works (the carry-over is "req" after the first chunk). -/
theorem c1_buffer_bug :
    sendLine "reqIds" [Json.num 1] =
      'r' :: 'e' :: 'q' :: 'I' :: 'd' :: 's' :: '\t' :: '1' :: '\t' :: '\n' :: [] ∧
    (dataHandler {schema := [], buffer := []}
        ('r' :: 'e' :: 'q' :: 'I' :: 'd' :: 's' :: '\t' :: '1' :: '\t' :: '\n' :: [])).2 =
      [.emit "reqIds" [Json.num 1, Json.str ""]] ∧
    (dataHandler {schema := [], buffer := []} ('r' :: 'e' :: 'q' :: [])).2 = [] ∧
    (dataHandler {schema := [], buffer := []} ('r' :: 'e' :: 'q' :: [])).1.buffer =
      'r' :: 'e' :: 'q' :: [] ∧
    (dataHandler
        (dataHandler {schema := [], buffer := []} ('r' :: 'e' :: 'q' :: [])).1
        ('I' :: 'd' :: 's' :: '\t' :: '1' :: '\t' :: '\n' :: [])).2 =
      [.emit "bufferIds" [Json.num 1, Json.str ""]] ∧
    (dataHandler
        (dataHandler {schema := [], buffer := []} ('r' :: 'e' :: 'q' :: [])).1
        ('I' :: 'd' :: 's' :: '\t' :: '1' :: '\t' :: '\n' :: [])).2 ≠
      (dataHandler {schema := [], buffer := []}
        ('r' :: 'e' :: 'q' :: 'I' :: 'd' :: 's' :: '\t' :: '1' :: '\t' :: '\n' :: [])).2 := by
  refine ⟨?_, by decide, by decide, by decide, by decide, by decide⟩
  simp [sendLine, stringifyChars, intChars, natChars, dsOf, natDigitsAux,
    digitCh, List.intercalate, List.intersperse]

/-- The chunk of C10: a typed help record whose owner "Foo" was never
registered, followed by a second complete record line. -/
def c10Chunk : List Char :=
  'h' :: 'e' :: 'l' :: 'p' :: '\t' :: 'F' :: 'o' :: 'o' :: '\t' :: 'f' :: '\t' ::
  'i' :: 'n' :: 't' :: '\t' :: '0' :: '\n' ::
  'r' :: 'e' :: 'q' :: 'I' :: 'd' :: 's' :: '\t' :: '1' :: '\t' :: '\n' :: []

theorem runLines_cons_err (sc : Schema) (l l2 : List Char)
    (rest : List (List Char)) (sc2 : Schema) (outs : List Output)
    (h : handleRecord sc (emit_line_record l).1 (emit_line_record l).2 =
      (.err sc2, outs)) :
    runLines sc (l :: l2 :: rest) = (sc2, outs ++ [.errorEmit], none) := by
  show (match handleRecord sc (emit_line_record l).1 (emit_line_record l).2 with
    | (.ok sc2, outs) =>
      let r := runLines sc2 (l2 :: rest)
      (r.1, outs ++ r.2.1, r.2.2)
    | (.err sc2, outs) => (sc2, outs ++ [.errorEmit], none)) =
    (sc2, outs ++ [.errorEmit], none)
  rw [h]

/-- C10: a help record carrying a non-empty field-type argument whose
owner is not in the registry makes the handler dereference an absent
entry; the surrounding data handler catches the throw, emits one error
event, leaves the registry and carry-over untouched, and processes none
of the chunk's remaining lines. -/
theorem c10_help_unknown_owner (sc : Schema) (h : slookup sc "Foo" = none) :
    dataHandler {schema := sc, buffer := []} c10Chunk =
      ({schema := sc, buffer := []}, [.errorEmit]) := by
  have hkey : jsToKey (some (Json.str "Foo")) = "Foo" := by decide
  have hrec : emit_line_record
      ('h' :: 'e' :: 'l' :: 'p' :: '\t' :: 'F' :: 'o' :: 'o' :: '\t' :: 'f' :: '\t' ::
        'i' :: 'n' :: 't' :: '\t' :: '0' :: []) =
      ("help", [Json.str "Foo", Json.str "f", Json.str "int", Json.num 0]) := by
    decide
  have hhelp : helpHandler sc (some (Json.str "Foo")) (some (Json.str "f"))
      (some (Json.str "int")) (some (Json.num 0)) = .err sc := by
    unfold helpHandler
    rw [if_pos (by decide : optTruthy (some (Json.str "int")) = true), hkey]
    simp only [h]
  have hhr : handleRecord sc "help"
      [Json.str "Foo", Json.str "f", Json.str "int", Json.num 0] = (.err sc, []) := by
    unfold handleRecord
    rw [if_pos rfl]
    simp only [List.get?]
    rw [hhelp]
  have hsplit : splitOn '\n' c10Chunk =
      [('h' :: 'e' :: 'l' :: 'p' :: '\t' :: 'F' :: 'o' :: 'o' :: '\t' :: 'f' :: '\t' ::
        'i' :: 'n' :: 't' :: '\t' :: '0' :: []),
       ('r' :: 'e' :: 'q' :: 'I' :: 'd' :: 's' :: '\t' :: '1' :: '\t' :: []),
       []] := by decide
  have hrun := runLines_cons_err sc
    ('h' :: 'e' :: 'l' :: 'p' :: '\t' :: 'F' :: 'o' :: 'o' :: '\t' :: 'f' :: '\t' ::
      'i' :: 'n' :: 't' :: '\t' :: '0' :: [])
    ('r' :: 'e' :: 'q' :: 'I' :: 'd' :: 's' :: '\t' :: '1' :: '\t' :: [])
    [[]] sc [] (by rw [hrec]; exact hhr)
  show (let s := if ({schema := sc, buffer := []} : CState).buffer ≠ [] then
      'b' :: 'u' :: 'f' :: 'f' :: 'e' :: 'r' :: c10Chunk else c10Chunk
    let r := runLines ({schema := sc, buffer := []} : CState).schema (splitOn '\n' s)
    (({schema := r.1, buffer := (r.2.2).getD ({schema := sc, buffer := []} : CState).buffer} : CState), r.2.1)) =
    ({schema := sc, buffer := []}, [.errorEmit])
  simp only [reduceIte, ne_eq, not_true_eq_false]
  rw [hsplit]
  rw [hrun]
  simp

theorem c10_help_unknown_owner_witness :
    slookup ([] : Schema) "Foo" = none ∧
    dataHandler {schema := [], buffer := []} c10Chunk =
      ({schema := [], buffer := []}, [.errorEmit]) :=
  ⟨rfl, c10_help_unknown_owner [] rfl⟩

theorem intercalate_cons_ne (sep : Char) (x : List Char) (l : List (List Char))
    (h : l ≠ []) :
    List.intercalate [sep] (x :: l) = x ++ sep :: List.intercalate [sep] l := by
  cases l with
  | nil => exact absurd rfl h
  | cons y ys => simp [List.intercalate, List.intersperse]

theorem intercalate_singleton (sep : Char) (x : List Char) :
    List.intercalate [sep] [x] = x := by
  simp [List.intercalate, List.intersperse]

theorem intercalate_append_last (sep : Char) (x : List Char) :
    ∀ (l : List (List Char)), l ≠ [] →
    List.intercalate [sep] (l ++ [x]) = List.intercalate [sep] l ++ sep :: x := by
  intro l
  induction l with
  | nil => intro h; exact absurd rfl h
  | cons a bs ih =>
    intro _
    cases bs with
    | nil =>
      rw [List.singleton_append, intercalate_cons_ne sep a [x] (by simp),
        intercalate_singleton, intercalate_singleton]
    | cons b cs =>
      rw [List.cons_append, intercalate_cons_ne sep a ((b :: cs) ++ [x]) (by simp),
        intercalate_cons_ne sep a (b :: cs) (by simp), ih (by simp)]
      simp

theorem mem_intercalate (sep : Char) (c : Char) :
    ∀ (l : List (List Char)), c ∈ List.intercalate [sep] l →
      c = sep ∨ ∃ p ∈ l, c ∈ p := by
  intro l
  induction l with
  | nil => intro h; simp [List.intercalate] at h
  | cons a bs ih =>
    intro h
    cases bs with
    | nil =>
      rw [intercalate_singleton] at h
      exact Or.inr ⟨a, by simp, h⟩
    | cons b cs =>
      rw [intercalate_cons_ne sep a (b :: cs) (by simp)] at h
      rcases List.mem_append.mp h with h1 | h2
      · exact Or.inr ⟨a, by simp, h1⟩
      · rcases List.mem_cons.mp h2 with rfl | h3
        · exact Or.inl rfl
        · rcases ih h3 with h4 | ⟨p, hp, hc⟩
          · exact Or.inl h4
          · exact Or.inr ⟨p, by simp [hp], hc⟩

theorem takeWhile_all_append (p : Char → Bool) (a b : List Char)
    (h : ∀ c ∈ a, p c = true) :
    (a ++ b).takeWhile p = a ++ b.takeWhile p := by
  induction a with
  | nil => simp
  | cons x xs ih =>
    have hx : p x = true := h x (by simp)
    rw [List.cons_append, List.takeWhile_cons, hx]
    simp only [if_true, reduceIte]
    rw [ih (fun c hc => h c (by simp [hc]))]
    rfl

theorem dropWhile_all_append (p : Char → Bool) (a b : List Char)
    (h : ∀ c ∈ a, p c = true) :
    (a ++ b).dropWhile p = b.dropWhile p := by
  induction a with
  | nil => simp
  | cons x xs ih =>
    have hx : p x = true := h x (by simp)
    rw [List.cons_append, List.dropWhile_cons, hx]
    simp only [if_true, reduceIte]
    exact ih (fun c hc => h c (by simp [hc]))

/-- Modelled from the spec's words, for comparison with the source's
`send`: the line `name + '\t' + args.map(JSON.encode).join('\t') + '\n'`. -/
def specSendLine (name : String) (args : List Json) : List Char :=
  name.data ++ '\t' :: (List.intercalate ['\t'] (args.map stringifyChars) ++ ['\n'])

/-- C2 counterexample: the transmitted line is not the spec's formula —
`send` joins the newline as one more tab-separated entry, so a tab lands
before the newline (`a\t1\t\n` instead of `a\t1\n`). -/
theorem c2_counterexample :
    sendLine "a" [Json.num 1] ≠ specSendLine "a" [Json.num 1] := by
  have h1 : sendLine "a" [Json.num 1] = 'a' :: '\t' :: '1' :: '\t' :: '\n' :: [] := by
    simp [sendLine, stringifyChars, intChars, natChars, dsOf, natDigitsAux,
      digitCh, List.intercalate, List.intersperse]
  have h2 : specSendLine "a" [Json.num 1] = 'a' :: '\t' :: '1' :: '\n' :: [] := by
    simp [specSendLine, stringifyChars, intChars, natChars, dsOf, natDigitsAux,
      digitCh, List.intercalate, List.intersperse]
  rw [h1, h2]
  decide

theorem runLines_cons_ok (sc : Schema) (l l2 : List Char)
    (rest : List (List Char)) (sc2 : Schema) (outs : List Output)
    (h : handleRecord sc (emit_line_record l).1 (emit_line_record l).2 =
      (.ok sc2, outs)) :
    runLines sc (l :: l2 :: rest) =
      ((runLines sc2 (l2 :: rest)).1,
       outs ++ (runLines sc2 (l2 :: rest)).2.1,
       (runLines sc2 (l2 :: rest)).2.2) := by
  show (match handleRecord sc (emit_line_record l).1 (emit_line_record l).2 with
    | (.ok sc2, outs) =>
      let r := runLines sc2 (l2 :: rest)
      (r.1, outs ++ r.2.1, r.2.2)
    | (.err sc2, outs) => (sc2, outs ++ [.errorEmit], none)) =
    ((runLines sc2 (l2 :: rest)).1,
     outs ++ (runLines sc2 (l2 :: rest)).2.1,
     (runLines sc2 (l2 :: rest)).2.2)
  rw [h]

/-- C2 (amended): for a call whose name is non-empty, whitespace-free and
is neither of the reserved record names, the transmitted line is the name
and the argument encodings joined by tabs with one extra tab before the
final newline; the line splits off the newline cleanly, and decoding the
line yields the name with the arguments followed by one extra empty-string
field (the round trip returns `args ++ [""]`, not `args`). -/
theorem c2_amended (name : String) (args : List Json)
    (hne : name.data ≠ [])
    (hws : ∀ c ∈ name.data, jsWs c = false)
    (hn1 : name ≠ "help") (hn2 : name ≠ "helpEnd") :
    sendLine name args =
      List.intercalate ['\t'] ([name.data] ++ args.map stringifyChars) ++ '\t' :: '\n' :: [] ∧
    splitOn '\n' (sendLine name args) = [(sendLine name args).dropLast, []] ∧
    emit_line_record ((sendLine name args).dropLast) = (name, args ++ [Json.str ""]) ∧
    (∀ sc, dataHandler {schema := sc, buffer := []} (sendLine name args) =
      ({schema := sc, buffer := []}, [Output.emit name (args ++ [Json.str ""])])) := by
  have hparts : ([name.data] ++ args.map stringifyChars : List (List Char)) ≠ [] := by simp
  have h1 : sendLine name args =
      List.intercalate ['\t'] ([name.data] ++ args.map stringifyChars) ++ '\t' :: '\n' :: [] := by
    unfold sendLine
    rw [intercalate_append_last '\t' ['\n'] _ hparts]
  have hshape : List.intercalate ['\t'] ([name.data] ++ args.map stringifyChars) ++ '\t' :: '\n' :: [] =
      (List.intercalate ['\t'] ([name.data] ++ args.map stringifyChars) ++ ['\t']) ++ ['\n'] := by
    simp
  have hnl : '\n' ∉ List.intercalate ['\t'] ([name.data] ++ args.map stringifyChars) := by
    intro hm
    rcases mem_intercalate '\t' '\n' _ hm with h | ⟨p, hp, hc⟩
    · exact absurd h (by decide)
    · rcases List.mem_append.mp hp with hp1 | hp2
      · have hpn : p = name.data := by simpa using hp1
        have hj : jsWs '\n' = true := by decide
        rw [hws '\n' (hpn ▸ hc)] at hj
        exact Bool.noConfusion hj
      · rcases List.mem_map.mp hp2 with ⟨v, _, rfl⟩
        exact (sc_ok v '\n' hc).2 rfl
  have hnl2 : '\n' ∉ List.intercalate ['\t'] ([name.data] ++ args.map stringifyChars) ++ ['\t'] := by
    intro hm
    rcases List.mem_append.mp hm with h | h
    · exact hnl h
    · have h' : '\n' = '\t' := by simpa using h
      exact absurd h' (by decide)
  have hdrop : (sendLine name args).dropLast =
      List.intercalate ['\t'] ([name.data] ++ args.map stringifyChars) ++ ['\t'] := by
    rw [h1, hshape]
    simp
  have hsplitI : splitOn '\n' (sendLine name args) =
      [List.intercalate ['\t'] ([name.data] ++ args.map stringifyChars) ++ ['\t'], []] := by
    rw [h1, hshape, splitOn_append_sep hnl2 []]
    rfl
  have hIt : List.intercalate ['\t'] ([name.data] ++ args.map stringifyChars) ++ ['\t'] =
      name.data ++ '\t' :: List.intercalate ['\t'] (args.map stringifyChars ++ [[]]) := by
    rw [← intercalate_append_last '\t' [] ([name.data] ++ args.map stringifyChars) hparts]
    have hsh : ([name.data] ++ args.map stringifyChars) ++ [([] : List Char)] =
        name.data :: (args.map stringifyChars ++ [[]]) := by simp
    rw [hsh, intercalate_cons_ne '\t' name.data _ (by simp)]
  obtain ⟨h0, t0, hnm⟩ : ∃ h0 t0, name.data = h0 :: t0 := by
    cases hd : name.data with
    | nil => exact absurd hd hne
    | cons a b => exact ⟨a, b, rfl⟩
  have hh0 : jsWs h0 = false := hws h0 (by rw [hnm]; exact List.mem_cons_self _ _)
  have ht : jsWs '\t' = true := by decide
  have hRESTdw : (List.intercalate ['\t'] (args.map stringifyChars ++ [[]])).dropWhile
      (fun c => jsWs c) = List.intercalate ['\t'] (args.map stringifyChars ++ [[]]) := by
    cases args with
    | nil =>
      rw [show (List.map stringifyChars [] ++ [[]] : List (List Char)) = [[]] from rfl,
        intercalate_singleton]
      rfl
    | cons a as =>
      obtain ⟨c, t, hsa, hcws, _, _⟩ := stringify_head a
      rw [show List.map stringifyChars (a :: as) ++ [[]] =
          stringifyChars a :: (List.map stringifyChars as ++ [[]]) by simp,
        intercalate_cons_ne '\t' _ _ (by simp), hsa, List.cons_append, List.dropWhile_cons]
      simp [hcws]
  have hcleanT : ∀ p ∈ args.map stringifyChars ++ [([] : List Char)], '\t' ∉ p := by
    intro p hp hm
    rcases List.mem_append.mp hp with h | h
    · rcases List.mem_map.mp h with ⟨v, _, rfl⟩
      exact (sc_ok v '\t' hm).1 rfl
    · have h' : p = [] := by simpa using h
      rw [h'] at hm
      exact absurd hm (List.not_mem_nil _)
  have hrec : emit_line_record ((sendLine name args).dropLast) = (name, args ++ [Json.str ""]) := by
    rw [hdrop, hIt]
    have hl1 : (name.data ++ '\t' :: List.intercalate ['\t'] (args.map stringifyChars ++ [[]])).dropWhile
        (fun c => jsWs c) =
        name.data ++ '\t' :: List.intercalate ['\t'] (args.map stringifyChars ++ [[]]) := by
      rw [hnm, List.cons_append, List.dropWhile_cons]
      simp [hh0]
    have hnm' : (name.data ++ '\t' :: List.intercalate ['\t'] (args.map stringifyChars ++ [[]])).takeWhile
        (fun c => !jsWs c) = name.data := by
      rw [takeWhile_all_append (fun c => !jsWs c) name.data _ (fun c hc => by simp [hws c hc]),
        List.takeWhile_cons]
      simp [ht]
    have hrest : (name.data ++ '\t' :: List.intercalate ['\t'] (args.map stringifyChars ++ [[]])).dropWhile
        (fun c => !jsWs c) = '\t' :: List.intercalate ['\t'] (args.map stringifyChars ++ [[]]) := by
      rw [dropWhile_all_append (fun c => !jsWs c) name.data _ (fun c hc => by simp [hws c hc]),
        List.dropWhile_cons]
      simp [ht]
    have hdw2 : ('\t' :: List.intercalate ['\t'] (args.map stringifyChars ++ [[]])).dropWhile
        (fun c => jsWs c) = List.intercalate ['\t'] (args.map stringifyChars ++ [[]]) := by
      rw [List.dropWhile_cons]
      simp [ht, hRESTdw]
    have hmapid : ∀ l : List Json, List.map (jsonParseOrRaw ∘ stringifyChars) l = l := by
      intro l
      induction l with
      | nil => rfl
      | cons x xs ih => simp [Function.comp, ih, jsonParseOrRaw_stringify]
    unfold emit_line_record
    simp only [hl1, hnm', hrest]
    rw [if_neg (by simp [hne])]
    rw [hdw2, splitOn_intercalate '\t' (args.map stringifyChars ++ [[]]) (by simp) hcleanT]
    rw [List.map_append, List.map_map]
    simp [jsonParseOrRaw_nil, mk_data, hmapid args]
  refine ⟨h1, ?_, hrec, ?_⟩
  · rw [hsplitI, hdrop]
  · intro sc
    have hhr : handleRecord sc name (args ++ [Json.str ""]) =
        (.ok sc, [Output.emit name (args ++ [Json.str ""])]) := by
      unfold handleRecord
      rw [if_neg hn1, if_neg hn2]
    have hrun := runLines_cons_ok sc
      (List.intercalate ['\t'] ([name.data] ++ args.map stringifyChars) ++ ['\t']) [] [] sc
      [Output.emit name (args ++ [Json.str ""])]
      (by rw [← hdrop, hrec]; exact hhr)
    have hlast : runLines sc [([] : List Char)] = (sc, [], some []) := rfl
    show (let s := if ({schema := sc, buffer := []} : CState).buffer ≠ [] then
        'b' :: 'u' :: 'f' :: 'f' :: 'e' :: 'r' :: sendLine name args else sendLine name args
      let r := runLines ({schema := sc, buffer := []} : CState).schema (splitOn '\n' s)
      (({schema := r.1, buffer := (r.2.2).getD ({schema := sc, buffer := []} : CState).buffer} : CState), r.2.1)) =
      ({schema := sc, buffer := []}, [Output.emit name (args ++ [Json.str ""])])
    simp only [reduceIte, ne_eq, not_true_eq_false]
    rw [hsplitI, hrun, hlast]
    simp

theorem c2_amended_witness :
    ("a".data ≠ [] ∧ (∀ c ∈ "a".data, jsWs c = false)) ∧
    emit_line_record ((sendLine "a" [Json.num 1]).dropLast) = ("a", [Json.num 1, Json.str ""]) :=
  ⟨⟨by decide, by decide⟩,
    (c2_amended "a" [Json.num 1] (by decide) (by decide) (by decide) (by decide)).2.2.1⟩

theorem firstErrSeq_ok_iff {α : Type} (f : α → Except VErr Unit) (l : List α) :
    firstErrSeq f l = .ok () ↔ ∀ x ∈ l, f x = .ok () := by
  induction l with
  | nil => simp [firstErrSeq]
  | cons x xs ih =>
    have hstep : firstErrSeq f (x :: xs) = match f x with
      | .ok () => firstErrSeq f xs
      | .error e => .error e := rfl
    cases hfx : f x with
    | ok u =>
      cases u
      rw [hstep, hfx]
      show firstErrSeq f xs = .ok () ↔ ∀ y ∈ x :: xs, f y = .ok ()
      rw [ih]
      constructor
      · intro h y hy
        rcases List.mem_cons.mp hy with rfl | hy2
        · exact hfx
        · exact h y hy2
      · intro h y hy
        exact h y (List.mem_cons_of_mem x hy)
    | error e =>
      rw [hstep, hfx]
      show Except.error e = .ok () ↔ ∀ y ∈ x :: xs, f y = .ok ()
      constructor
      · intro h
        exact absurd h (by simp)
      · intro h
        have hx := h x (List.mem_cons_self x xs)
        rw [hfx] at hx
        exact absurd hx (by simp)

theorem alookup_mem {α : Type} (l : List (String × α)) (k : String) (v : α)
    (h : alookup l k = some v) : (k, v) ∈ l := by
  induction l with
  | nil => exact absurd h (by simp [alookup])
  | cons p rest ih =>
    rw [show alookup (p :: rest) k = if p.1 = k then some p.2 else alookup rest k from rfl] at h
    by_cases hp : p.1 = k
    · rw [if_pos hp] at h
      have hv : p.2 = v := by injection h
      have hpkv : p = (k, v) := by
        rw [← hp, ← hv]
      rw [hpkv]
      exact List.mem_cons_self _ _
    · rw [if_neg hp] at h
      exact List.mem_cons_of_mem p (ih h)

theorem alookup_some_of_mem_keys {α : Type} (l : List (String × α)) (k : String)
    (h : k ∈ l.map (fun q => q.1)) : ∃ v, alookup l k = some v := by
  induction l with
  | nil => exact absurd h (by simp)
  | cons p rest ih =>
    rw [show alookup (p :: rest) k = if p.1 = k then some p.2 else alookup rest k from rfl]
    by_cases hp : p.1 = k
    · exact ⟨p.2, by rw [if_pos hp]⟩
    · rw [if_neg hp]
      apply ih
      rcases List.mem_map.mp h with ⟨q, hq, hqk⟩
      rcases List.mem_cons.mp hq with rfl | hq2
      · exact absurd hqk hp
      · exact List.mem_map.mpr ⟨q, hq2, hqk⟩

theorem alookup_none_of_not_mem_keys {α : Type} (l : List (String × α)) (k : String)
    (h : k ∉ l.map (fun q => q.1)) : alookup l k = none := by
  induction l with
  | nil => rfl
  | cons p rest ih =>
    rw [show alookup (p :: rest) k = if p.1 = k then some p.2 else alookup rest k from rfl]
    rw [if_neg (fun hp => h (List.mem_map.mpr ⟨p, List.mem_cons_self p rest, hp⟩))]
    exact ih (fun hm => h (List.mem_map.mp hm |>.elim
      (fun q hq => List.mem_map.mpr ⟨q, List.mem_cons_of_mem p hq.1, hq.2⟩)))

theorem mem_keys_aset {α : Type} (l : List (String × α)) (k k2 : String) (v : α)
    (h : k ∈ (aset l k2 v).map (fun q => q.1)) :
    k ∈ l.map (fun q => q.1) ∨ k = k2 := by
  induction l with
  | nil =>
    have : k = k2 := by simpa [aset] using h
    exact Or.inr this
  | cons p rest ih =>
    rw [show aset (p :: rest) k2 v =
      if p.1 = k2 then (k2, v) :: rest else (p.1, p.2) :: aset rest k2 v from
      by cases p; rfl] at h
    by_cases hp : p.1 = k2
    · rw [if_pos hp] at h
      rcases List.mem_map.mp h with ⟨q, hq, hqk⟩
      rcases List.mem_cons.mp hq with rfl | hq2
      · exact Or.inr hqk.symm
      · exact Or.inl (List.mem_map.mpr ⟨q, List.mem_cons_of_mem p hq2, hqk⟩)
    · rw [if_neg hp] at h
      rcases List.mem_map.mp h with ⟨q, hq, hqk⟩
      rcases List.mem_cons.mp hq with rfl | hq2
      · exact Or.inl (List.mem_map.mpr ⟨p, List.mem_cons_self p rest,
          by simpa using hqk⟩)
      · rcases ih (List.mem_map.mpr ⟨q, hq2, hqk⟩) with h1 | h2
        · rcases List.mem_map.mp h1 with ⟨r, hr, hrk⟩
          exact Or.inl (List.mem_map.mpr ⟨r, List.mem_cons_of_mem p hr, hrk⟩)
        · exact Or.inr h2

theorem mem_keys_foldl_aset {α : Type} (es : List (String × α)) :
    ∀ (init : List (String × α)) (k : String),
    k ∈ (es.foldl (fun acc e => aset acc e.1 e.2) init).map (fun q => q.1) →
    k ∈ init.map (fun q => q.1) ∨ ∃ e ∈ es, e.1 = k := by
  induction es with
  | nil =>
    intro init k h
    exact Or.inl h
  | cons e es ih =>
    intro init k h
    rw [List.foldl_cons] at h
    rcases ih (aset init e.1 e.2) k h with h1 | ⟨e2, he2, hk⟩
    · rcases mem_keys_aset init k e.1 e.2 h1 with h2 | h3
      · exact Or.inl h2
      · exact Or.inr ⟨e, List.mem_cons_self e es, h3.symm⟩
    · exact Or.inr ⟨e2, List.mem_cons_of_mem e he2, hk⟩

theorem contains_true_iff (l : List String) (k : String) :
    l.contains k = true ↔ k ∈ l := by
  induction l with
  | nil => simp
  | cons x xs ih => simp

theorem jsDeepEqual_obj (kvs kvs2 : List (String × Json)) :
    jsDeepEqual (.obj kvs) (.obj kvs2) =
      (kvs.length == kvs2.length && jsDeepEqualF kvs kvs2) := by
  rw [jsDeepEqual.eq_def]

theorem jsDeepEqual_arr_obj (xs : List Json) (kvs2 : List (String × Json)) :
    jsDeepEqual (.arr xs) (.obj kvs2) = false := by
  rw [jsDeepEqual.eq_def]

theorem jsDeepEqualF_cons (k : String) (v : Json) (rest kvs2 : List (String × Json)) :
    jsDeepEqualF ((k, v) :: rest) kvs2 =
      ((match alookup kvs2 k with
        | some v2 => jsDeepEqual v v2
        | none => false) && jsDeepEqualF rest kvs2) := by
  rw [jsDeepEqualF.eq_def]

theorem jsDeepEqualF_missing (kvs kvs2 : List (String × Json)) (k : String) (v : Json)
    (hmem : (k, v) ∈ kvs) (hnone : alookup kvs2 k = none) :
    jsDeepEqualF kvs kvs2 = false := by
  induction kvs with
  | nil => exact absurd hmem (List.not_mem_nil _)
  | cons p rest ih =>
    rw [show p = (p.1, p.2) from rfl, jsDeepEqualF_cons]
    rcases List.mem_cons.mp hmem with heq | hmem2
    · have hk : p.1 = k := by rw [← heq]
      rw [hk, hnone]
      rfl
    · rw [ih hmem2, Bool.and_false]

/-- C6: against an object type descriptor with a non-empty declared field
map (and string-typed field declarations whose default-value keys are all
declared), validating a non-null structured value fails exactly when some
key of the value is undeclared or some declared key's value fails the
recursive check against that field's declared type; an undeclared key
makes the failure carry the corrected example object (the declared
defaults overlaid with the value's declared-key entries), from which every
undeclared key is absent. -/
theorem c6_object_validation (fuel : Nat) (sc : Schema) (pt : String) (type : Item)
    (ps dflts : List (String × Json)) (v : Json)
    (hlook : slookup sc (stripBrackets pt) = some type)
    (hbr : pt.data.head? ≠ some '[')
    (hvals : type.values = some [])
    (hps : type.object_properties = some ps)
    (hpsne : ps ≠ [])
    (hdflt : type.object_values = some dflts)
    (hsub : ∀ k ∈ dflts.map (fun q => q.1), k ∈ ps.map (fun q => q.1))
    (hstr : ∀ q ∈ ps, ∃ t, q.2 = Json.str t)
    (hv : isStructured v = true) :
    (assertTypeF (fuel + 1) sc pt v ≠ .ok () ↔
      ((∃ e ∈ jsEntries v, (ps.map (fun q => q.1)).contains e.1 = false) ∨
       (∃ e ∈ jsEntries v, ∃ fts, alookup ps e.1 = some (Json.str fts) ∧
         assertTypeF fuel sc fts e.2 ≠ .ok ()))) ∧
    ((∃ e ∈ jsEntries v, (ps.map (fun q => q.1)).contains e.1 = false) →
      assertTypeF (fuel + 1) sc pt v =
        .error (.unknownKey (overlayExample dflts (jsEntries v) (ps.map (fun q => q.1)))) ∧
      ∀ e ∈ jsEntries v, (ps.map (fun q => q.1)).contains e.1 = false →
        alookup (jsEntries (overlayExample dflts (jsEntries v) (ps.map (fun q => q.1)))) e.1
          = none) := by
  have hvn : v ≠ Json.null := by
    intro h
    rw [h] at hv
    exact Bool.noConfusion hv
  have hredG : ∀ (F : Schema → String → Json → Except VErr Unit), F = assertTypeF fuel →
      assertTypeF (fuel + 1) sc pt v =
      (if ((jsEntries v).any (fun e => !(ps.map (fun q => q.1)).contains e.1)) ∧
          ¬ jsDeepEqual v (overlayExample dflts (jsEntries v) (ps.map (fun q => q.1))) then
        Except.error (.unknownKey (overlayExample dflts (jsEntries v) (ps.map (fun q => q.1))))
      else firstErrSeq (fun e =>
        if (ps.map (fun q => q.1)).contains e.1 then
          match alookup ps e.1 with
          | some (.str fts) => F sc fts e.2
          | some _ => .error .typeError
          | none => .error .typeError
        else .ok ()) (jsEntries v)) := by
    intro F hF
    unfold assertTypeF
    simp only [hlook]
    rw [if_neg hbr]
    simp only [hvals]
    rw [if_neg (by simp), if_pos ⟨hvn, hv⟩]
    simp only [hps]
    rw [if_pos hpsne]
    simp only [hdflt, Option.getD_some, hF]
  have hred := hredG (assertTypeF fuel) rfl
  have hkeysEx : ∀ k,
      k ∈ (jsEntries (overlayExample dflts (jsEntries v) (ps.map (fun q => q.1)))).map
        (fun q => q.1) → k ∈ ps.map (fun q => q.1) := by
    intro k hk
    unfold overlayExample at hk
    rcases mem_keys_foldl_aset _ dflts k hk with h1 | ⟨e, he, hek⟩
    · exact hsub k h1
    · have := (List.mem_filter.mp he).2
      rw [hek] at this
      exact (contains_true_iff _ _).mp this
  have hexNone : ∀ k, (ps.map (fun q => q.1)).contains k = false →
      alookup (jsEntries (overlayExample dflts (jsEntries v) (ps.map (fun q => q.1)))) k
        = none := by
    intro k hk
    apply alookup_none_of_not_mem_keys
    intro hmem
    rw [(contains_true_iff _ _).mpr (hkeysEx k hmem)] at hk
    exact Bool.noConfusion hk
  have hde : (∃ e ∈ jsEntries v, (ps.map (fun q => q.1)).contains e.1 = false) →
      jsDeepEqual v (overlayExample dflts (jsEntries v) (ps.map (fun q => q.1))) = false := by
    rintro ⟨e, he, hce⟩
    cases v with
    | null => exact Bool.noConfusion hv
    | bool b => exact Bool.noConfusion hv
    | num n => exact Bool.noConfusion hv
    | str t => exact Bool.noConfusion hv
    | arr xs =>
      unfold overlayExample
      exact jsDeepEqual_arr_obj xs _
    | obj kvs =>
      have hnone := hexNone e.1 hce
      unfold overlayExample at hnone ⊢
      simp only [jsEntries] at hnone ⊢
      rw [jsDeepEqual_obj]
      rw [jsDeepEqualF_missing kvs _ e.1 e.2 he hnone, Bool.and_false]
  have hpos : (∃ e ∈ jsEntries v, (ps.map (fun q => q.1)).contains e.1 = false) →
      assertTypeF (fuel + 1) sc pt v =
        .error (.unknownKey (overlayExample dflts (jsEntries v) (ps.map (fun q => q.1)))) := by
    intro hany
    have hanyb : (jsEntries v).any (fun e => !(ps.map (fun q => q.1)).contains e.1) = true := by
      rcases hany with ⟨e, he, hc⟩
      exact List.any_eq_true.mpr ⟨e, he, by rw [hc]; rfl⟩
    rw [hred, if_pos ⟨hanyb, by rw [hde hany]; exact Bool.false_ne_true⟩]
  constructor
  · by_cases hany : ∃ e ∈ jsEntries v, (ps.map (fun q => q.1)).contains e.1 = false
    · rw [hpos hany]
      constructor
      · intro _
        exact Or.inl hany
      · intro _
        simp
    · have hanyb : (jsEntries v).any (fun e => !(ps.map (fun q => q.1)).contains e.1)
          = false := by
        cases hb2 : (jsEntries v).any (fun e => !(ps.map (fun q => q.1)).contains e.1) with
        | false => rfl
        | true =>
          rcases List.any_eq_true.mp hb2 with ⟨e, he, hbe⟩
          cases hc2 : (ps.map (fun q => q.1)).contains e.1 with
          | false => exact absurd ⟨e, he, hc2⟩ hany
          | true =>
            rw [hc2] at hbe
            exact Bool.noConfusion hbe
      have hcond : ¬(((jsEntries v).any (fun e => !(ps.map (fun q => q.1)).contains e.1)
          = true) ∧
          ¬ jsDeepEqual v (overlayExample dflts (jsEntries v) (ps.map (fun q => q.1)))
            = true) := by
        intro hc
        rw [hanyb] at hc
        exact Bool.noConfusion hc.1
      rw [hred, if_neg hcond, Ne, firstErrSeq_ok_iff]
      constructor
      · intro hnall
        push_neg at hnall
        rcases hnall with ⟨e, he, hfe⟩
        have hce : (ps.map (fun q => q.1)).contains e.1 = true := by
          cases hc2 : (ps.map (fun q => q.1)).contains e.1 with
          | true => rfl
          | false => exact absurd ⟨e, he, hc2⟩ hany
        rw [if_pos hce] at hfe
        obtain ⟨w, hw⟩ := alookup_some_of_mem_keys ps e.1 ((contains_true_iff _ _).mp hce)
        obtain ⟨t, htw⟩ := hstr (e.1, w) (alookup_mem ps e.1 w hw)
        rw [show w = Json.str t from htw] at hw
        rw [hw] at hfe
        exact Or.inr ⟨e, he, t, hw, hfe⟩
      · rintro (h1 | ⟨e, he, fts, hfl, hfail⟩)
        · exact absurd h1 hany
        · intro hall
          have hmemk : e.1 ∈ ps.map (fun q => q.1) :=
            List.mem_map.mpr ⟨(e.1, Json.str fts), alookup_mem ps e.1 _ hfl, rfl⟩
          have hx := hall e he
          rw [if_pos ((contains_true_iff _ _).mpr hmemk), hfl] at hx
          exact hfail hx
  · intro hany
    exact ⟨hpos hany, fun e _ hce => hexNone e.1 hce⟩

theorem c6_object_validation_witness :
    isStructured (Json.obj [("x", Json.num 1), ("y", Json.num 2)]) = true ∧
    assertTypeF 2
      [("Contract", { type_name := some "Contract", values := some [], object_properties := some [("x", Json.str "int")], object_values := some [("x", Json.num 0)] })]
      "Contract" (Json.obj [("x", Json.num 1), ("y", Json.num 2)]) =
      .error (.unknownKey (overlayExample [("x", Json.num 0)]
        (jsEntries (Json.obj [("x", Json.num 1), ("y", Json.num 2)]))
        ([("x", Json.str "int")].map (fun q => q.1)))) :=
  ⟨rfl,
    ((c6_object_validation 1
      [("Contract", { type_name := some "Contract", values := some [], object_properties := some [("x", Json.str "int")], object_values := some [("x", Json.num 0)] })]
      "Contract"
      { type_name := some "Contract", values := some [], object_properties := some [("x", Json.str "int")], object_values := some [("x", Json.num 0)] }
      [("x", Json.str "int")] [("x", Json.num 0)]
      (Json.obj [("x", Json.num 1), ("y", Json.num 2)])
      (by decide) (by decide) rfl rfl (by decide) rfl (by decide)
      (fun q hq => ⟨"int", by rw [List.mem_singleton.mp hq]⟩) rfl).2
      ⟨("y", Json.num 2), by decide, by decide⟩).1⟩

end IbTws
